import Mathlib

/-!
The program `binstr.cc` as a shallow embedding.

Conventions of the embedding.

* A C string is a `List Char` (no NUL inside, as for every `const char *`).
* The memory reachable from `buf` is a function `Nat → Nat` giving the byte
  stored at each index; the capacity `buflen` is a separate number, exactly
  as in the C signature, so that a write at an index `≥ buflen` is visible.
* C `int` values are mathematical integers (`Int`) in the first embedding.
  It describes the program as long as every `int` the program computes stays
  within 32 bits.  A second embedding of the same functions, with the suffix
  `_int`, stores every `int` in 32 bits (`to_int`); it is the one used where
  a number of the text does not fit in an `int`, or where a difference of two
  `int` values does not (`sscanf_item_int_eq` gives a domain on which the two
  embeddings of `sscanf_item` agree).
* `sscanf_item` and `binstr_parse` only ever touch the buffer through
  `bit_set`, and never read it.  Their embedding therefore returns the
  sequence of `bit_set` calls they make, in order (`BitSetCall`), next to
  the value they return; `run_calls` replays the calls on a buffer.
-/

namespace Binstr

/-! ## The bit writer -/

/-- Embedding of `bit_set(buf, bitindex, val, len)` (binstr.cc, lines 33-55).
`mask` is a `uint8_t`, hence the `% 256`; `*byte &= ~mask` keeps the bits of
the byte that are outside the mask, `255 ^^^ mask` being `~mask` on 8 bits. -/
def bit_set (buf : Nat → Nat) (bitindex : Nat) (val : Nat) (len : Nat) : Nat → Nat :=
  if len = 0 then buf
  else
    let byte := bitindex / 8
    let lshift : Int := 8 - (len : Int) - ((bitindex % 8 : Nat) : Int)
    let mask : Nat :=
      if lshift ≥ 0 then (((1 <<< len) - 1) <<< lshift.toNat) % 256
      else (((1 <<< len) - 1) >>> (-lshift).toNat) % 256
    let b0 := buf byte &&& (255 ^^^ mask)
    let b1 :=
      if lshift ≥ 0 then (b0 ||| ((val <<< lshift.toNat) &&& mask)) % 256
      else (b0 ||| ((val >>> (-lshift).toNat) &&& mask)) % 256
    let buf1 := Function.update buf byte b1
    if lshift < 0 then
      let byte2 := bitindex / 8 + 1
      let lshift2 := lshift + 8
      let mask2 : Nat := (((1 <<< len) - 1) <<< lshift2.toNat) % 256
      let c0 := buf1 byte2 &&& (255 ^^^ mask2)
      let c1 := (c0 ||| (val <<< lshift2.toNat)) % 256
      Function.update buf1 byte2 c1
    else buf1

/-- One call `bit_set(buf, bitindex, val, len)` as made by the parser. -/
structure BitSetCall where
  bitindex : Int
  val : Nat
  len : Int
deriving DecidableEq, Repr

/-- Replays one recorded call on a buffer. -/
def apply_call (buf : Nat → Nat) (c : BitSetCall) : Nat → Nat :=
  bit_set buf c.bitindex.toNat c.val c.len.toNat

/-- Replays recorded calls, first call first. -/
def run_calls : List BitSetCall → (Nat → Nat) → (Nat → Nat)
  | [], buf => buf
  | c :: cs, buf => run_calls cs (apply_call buf c)

/-- Bit at bit position `p` of a buffer: bit `7 - p % 8` of byte `p / 8`. -/
def get_bit (buf : Nat → Nat) (p : Nat) : Bool :=
  (buf (p / 8)).testBit (7 - p % 8)

/-! ## Character classes of the C library ("C" locale) -/

/-- The C `isdigit`. -/
def isdigit (c : Char) : Bool := decide (48 ≤ c.toNat ∧ c.toNat ≤ 57)

/-- The C `isxdigit`. -/
def isxdigit (c : Char) : Bool :=
  isdigit c || decide (97 ≤ c.toNat ∧ c.toNat ≤ 102) || decide (65 ≤ c.toNat ∧ c.toNat ≤ 70)

/-- The C `tolower`, as a character code. -/
def tolower (c : Char) : Nat :=
  if 65 ≤ c.toNat ∧ c.toNat ≤ 90 then c.toNat + 32 else c.toNat

/-- The C `isspace`: space, and `\t \n \v \f \r`. -/
def isspace (c : Char) : Bool := decide (c.toNat = 32 ∨ (9 ≤ c.toNat ∧ c.toNat ≤ 13))

/-- Octal digit test `c >= '0' && c <= '7'`. -/
def isodigit (c : Char) : Bool := decide (48 ≤ c.toNat ∧ c.toNat ≤ 55)

/-! ## Number scanning (`%d`, `strtoull`) -/

/-- Reads the longest run of decimal digits at the head of `s`, continuing the
value `acc`; gives the value and the remaining text. -/
def scan_digits : Nat → List Char → Nat × List Char
  | acc, [] => (acc, [])
  | acc, c :: cs =>
    if isdigit c then scan_digits (acc * 10 + (c.toNat - 48)) cs else (acc, c :: cs)

/-- Embedding of `strtoull(s, NULL, 10)`: leading white space, an optional
sign, the longest run of digits (none: `0`); a value that does not fit in 64
bits yields `ULLONG_MAX`, a minus sign negates modulo `2^64`. -/
def strtoull (s : List Char) : Nat :=
  let s1 := s.dropWhile isspace
  let neg := s1.head? = some '-'
  let s2 := if s1.head? = some '-' ∨ s1.head? = some '+' then s1.tail else s1
  let v := (scan_digits 0 s2).1
  if v ≥ 2 ^ 64 then 2 ^ 64 - 1 else if neg then (2 ^ 64 - v) % 2 ^ 64 else v

/-- Result of `sscanf(s, "<c1>%d<c2>%n", &v, &n)`: the value returned by
`sscanf`, and the values stored through `&v` and `&n` when they are stored. -/
structure ScanResult where
  ret : Int
  val : Option Int
  n : Option Nat
deriving DecidableEq, Repr

/-- Embedding of `sscanf(s, "<c1>%d<c2>%n", &v, &n)` for the two formats of
`binstr_parse`, `"*%d*%n"` and `"{%d}%n"`.  The literal `c1` must be the first
character; `%d` skips white space, takes an optional sign and at least one
digit; then the literal `c2` must follow for `%n` to be reached.  The return
value is the number of assignments (`%n` not counted), `-1` (EOF) when the
input ends before anything could be read for `%d`; the caller only compares it
with `1`.  `val` is the number read, as a mathematical integer; its storage in
a 32-bit `int` is `sscanf_d_int`. -/
def sscanf_d (c1 c2 : Char) (s : List Char) : ScanResult :=
  match s with
  | [] => ⟨-1, none, none⟩
  | c :: t =>
    if c ≠ c1 then ⟨0, none, none⟩
    else
      let t1 := t.dropWhile isspace
      let neg := t1.head? = some '-'
      let t2 := if t1.head? = some '-' ∨ t1.head? = some '+' then t1.tail else t1
      match t2 with
      | [] => ⟨if t1 = [] then -1 else 0, none, none⟩
      | d :: _ =>
        if ¬ isdigit d then ⟨0, none, none⟩
        else
          let r := scan_digits 0 t2
          let v : Int := if neg then -(r.1 : Int) else (r.1 : Int)
          match r.2 with
          | [] => ⟨1, some v, none⟩
          | e :: rest =>
            if e = c2 then ⟨1, some v, some (s.length - rest.length)⟩
            else ⟨1, some v, none⟩

/-! ## The item decoder -/

/-- The loop `while (bitlen > actual_bitlen)` of `sscanf_item` (lines 82-87):
`k` iterations, each one `bit_set(buf, bitindex+biti, 0, 1); biti += 1`. -/
def pad_loop (bitindex : Int) : Nat → Int → List BitSetCall
  | 0, _ => []
  | k + 1, biti => ⟨bitindex + biti, 0, 1⟩ :: pad_loop bitindex k (biti + 1)

/-- The digit loop of `sscanf_item` (lines 91-115) over the characters from
`start_index` on, with the running `bitlen` and `biti`.  Gives the return
value of `sscanf_item` (`-1`, or the final `biti`) and the calls made.  The
sums and differences are those of mathematical integers; with 32-bit storage
(line 109 overflows for `bitlen` near `INT_MIN`) the loop is `digit_loop_int`. -/
def digit_loop (digitlen actual_bitlen buflen bitindex : Int) :
    List Char → Int → Int → Int × List BitSetCall
  | [], _, biti => (biti, [])
  | c :: cs, bitlen, biti =>
    if digitlen = 4 ∧ ¬ isxdigit c then (-1, [])
    else if digitlen = 1 ∧ c ≠ '0' ∧ c ≠ '1' then (-1, [])
    else if digitlen = 3 ∧ ¬ isodigit c then (-1, [])
    else if bitindex + biti + digitlen > buflen * 8 then (-1, [])
    else
      let v : Int := if isdigit c then (c.toNat : Int) - 48 else ((tolower c : Int) - 97) + 10
      let val : Nat := (v % 256).toNat
      let dropbits : Int :=
        if bitlen < actual_bitlen then min digitlen (actual_bitlen - bitlen) else 0
      let len := digitlen - dropbits
      let r := digit_loop digitlen actual_bitlen buflen bitindex cs (bitlen + dropbits) (biti + len)
      (r.1, ⟨bitindex + biti, val, len⟩ :: r.2)

/-- The decimal loop of `sscanf_item` (lines 127-138),
`for (int i = bitlen; i > 0; i -= 8)`.  `fuel` bounds the number of
iterations; `i.toNat` is always enough. -/
def dec_loop (value : Nat) (bitindex : Int) : Nat → Int → Int → Int × List BitSetCall
  | 0, _, biti => (biti, [])
  | fuel + 1, i, biti =>
    if i > 0 then
      let len : Int := if i < 8 then i else 8
      let mask : Nat := 255 >>> (8 - len).toNat
      let rshift := i - 8
      let val : Nat :=
        if rshift ≥ 0 then ((value >>> rshift.toNat) &&& mask) % 256 else (value &&& mask) % 256
      let r := dec_loop value bitindex fuel (i - 8) (biti + len)
      (r.1, ⟨bitindex + biti, val, len⟩ :: r.2)
    else (biti, [])

/-- The base test of `sscanf_item` (lines 60-64): the item has more than one
character, starts with `0`, and goes on with `x`, `b` or an octal digit. -/
def is_based (item : List Char) : Bool :=
  match item with
  | c0 :: c1 :: _ => c0 = '0' && (c1 = 'x' || c1 = 'b' || isodigit c1)
  | _ => false

/-- Embedding of `sscanf_item(item, bitlen, buf, buflen, bitindex)`
(binstr.cc, lines 57-142): the value returned and the `bit_set` calls made. -/
def sscanf_item (item : List Char) (bitlen : Int) (buflen : Int) (bitindex : Int) :
    Int × List BitSetCall :=
  if is_based item then
    let c1 := item.getD 1 '0'
    let digitlen : Int := if c1 = 'x' then 4 else if c1 = 'b' then 1 else 3
    let start_index : Nat := if c1 = 'x' then 2 else if c1 = 'b' then 2 else 1
    let actual_bitlen : Int := ((item.length - start_index : Nat) : Int) * digitlen
    let npad : Nat := if bitlen = -1 then 0 else (bitlen - actual_bitlen).toNat
    let bitlen1 : Int :=
      if bitlen = -1 then actual_bitlen
      else if bitlen > actual_bitlen then actual_bitlen else bitlen
    let pads := pad_loop bitindex npad 0
    let r := digit_loop digitlen actual_bitlen buflen bitindex (item.drop start_index)
      bitlen1 (npad : Int)
    (r.1, pads ++ r.2)
  else
    if bitlen = -1 then (-1, [])
    else if bitlen < 0 ∨ bitlen > 64 then (-1, [])
    else dec_loop (strtoull item) bitindex bitlen.toNat bitlen 0

/-! ## The document driver -/

/-- The characters removed by `trim`: `" \n\r\t"`. -/
def is_blank (c : Char) : Bool := c = ' ' || c = '\n' || c = '\r' || c = '\t'

/-- Embedding of `ltrim`. -/
def ltrim (s : List Char) : List Char := s.dropWhile is_blank

/-- Embedding of `rtrim`. -/
def rtrim (s : List Char) : List Char := (s.reverse.dropWhile is_blank).reverse

/-- Embedding of `trim`: `rtrim` then `ltrim`. -/
def trim (s : List Char) : List Char := ltrim (rtrim s)

/-- The pieces read by repeated `std::getline(stream, piece, d)`: the text is
cut at every `d`; a text that ends with `d` has no empty last piece. -/
def getlines (d : Char) : List Char → List (List Char)
  | [] => []
  | c :: cs =>
    if c = d then [] :: getlines d cs
    else
      match getlines d cs with
      | [] => [[c]]
      | l :: ls => (c :: l) :: ls

/-- State of the driver after a piece of work: `none` when the function has
returned `-1`, else the bit cursor; and the calls made. -/
abbrev Outcome := Option Int × List BitSetCall

/-- Sequencing: stop on failure, else continue from the new cursor. -/
def and_then (r : Outcome) (k : Int → Outcome) : Outcome :=
  match r.1 with
  | none => (none, r.2)
  | some b => ((k b).1, r.2 ++ (k b).2)

/-- The loop `for (int j = 0; j < rep; ++j)` of `binstr_parse` (lines
180-187), `n` iterations. -/
def rep_loop (numeral : List Char) (bitlen buflen : Int) : Nat → Int → Outcome
  | 0, bitindex => (some bitindex, [])
  | n + 1, bitindex =>
    let r := sscanf_item numeral bitlen buflen bitindex
    if r.1 < 0 then (none, r.2)
    else and_then (some (bitindex + r.1), r.2) (rep_loop numeral bitlen buflen n)

/-- The repeat count of an item: `rep` after line 173. -/
def item_rep (item : List Char) : Int :=
  let s := sscanf_d '*' '*' item
  if s.ret < 1 then 1 else s.val.getD 1

/-- The value of `index` after line 172. -/
def item_index (item : List Char) : Nat := (sscanf_d '*' '*' item).n.getD 0

/-- The explicit length of an item: `bitlen` after line 178. -/
def item_bitlen (item : List Char) : Int :=
  let s := sscanf_d '{' '}' (item.drop (item_index item))
  if s.ret < 1 then -1 else s.val.getD (-1)

/-- The numeral of an item: `item.substr(index)` at line 181. -/
def item_numeral (item : List Char) : List Char :=
  item.drop (item_index item + (sscanf_d '{' '}' (item.drop (item_index item))).n.getD 0)

/-- The body of the item loop for one item that is neither empty nor a
comment (lines 169-187). -/
def item_step (buflen : Int) (item : List Char) (bitindex : Int) : Outcome :=
  rep_loop (item_numeral item) (item_bitlen item) buflen (item_rep item).toNat bitindex

/-- The loop over the items of a line (lines 161-188). -/
def item_loop (buflen : Int) : List (List Char) → Int → Outcome
  | [], bitindex => (some bitindex, [])
  | item :: rest, bitindex =>
    if item = [] then item_loop buflen rest bitindex
    else if item.head? = some '#' then (some bitindex, [])
    else and_then (item_step buflen item bitindex) (item_loop buflen rest)

/-- The loop over the lines of the document (lines 152-189). -/
def line_loop (buflen : Int) : List (List Char) → Int → Outcome
  | [], bitindex => (some bitindex, [])
  | line :: rest, bitindex =>
    if trim line = [] then line_loop buflen rest bitindex
    else and_then (item_loop buflen (getlines ' ' (trim line)) bitindex) (line_loop buflen rest)

/-- The value returned by `binstr_parse(in, buf, buflen)` and the `bit_set`
calls it makes (binstr.cc, lines 144-194). -/
def binstr_calls (text : List Char) (buflen : Int) : Int × List BitSetCall :=
  let r := line_loop buflen (getlines '\n' text) 0
  match r.1 with
  | none => (-1, r.2)
  | some b => (b, r.2 ++ [⟨b, 0, 8 - b % 8⟩])

/-- Embedding of `binstr_parse(in, buf, buflen)`: the value returned and the
buffer afterwards. -/
def binstr_parse (text : List Char) (buf : Nat → Nat) (buflen : Int) : Int × (Nat → Nat) :=
  ((binstr_calls text buflen).1, run_calls (binstr_calls text buflen).2 buf)

/-! ## Vocabulary of the statements -/

/-- Number of bits written by a list of calls. -/
def calls_len : List BitSetCall → Nat
  | [] => 0
  | c :: cs => c.len.toNat + calls_len cs

/-- The bits written by a list of calls, read as one big-endian number: each
call contributes the `len` low bits of its `val`, first call leftmost. -/
def calls_value : List BitSetCall → Nat
  | [] => 0
  | c :: cs => (c.val % 2 ^ c.len.toNat) * 2 ^ calls_len cs + calls_value cs

/-- The calls write consecutive spans starting at bit `s`, each of 0 to 8 bits. -/
def contiguous : Int → List BitSetCall → Prop
  | _, [] => True
  | s, c :: cs => c.bitindex = s ∧ 0 ≤ c.len ∧ c.len ≤ 8 ∧ contiguous (s + c.len) cs

/-- Value of a digit character: `0-9`, `a-f`, `A-F`. -/
def digit_value (c : Char) : Nat :=
  if 48 ≤ c.toNat ∧ c.toNat ≤ 57 then c.toNat - 48
  else if 97 ≤ c.toNat ∧ c.toNat ≤ 102 then c.toNat - 87
  else c.toNat - 55

/-- Decimal digits of `n`, most significant first, in front of `acc`. -/
def nat_text_aux : Nat → Nat → List Char → List Char
  | 0, _, acc => acc
  | fuel + 1, n, acc =>
    if n < 10 then Char.ofNat (48 + n) :: acc
    else nat_text_aux fuel (n / 10) (Char.ofNat (48 + n % 10) :: acc)

/-- The decimal text of a natural number. -/
def nat_text (n : Nat) : List Char := nat_text_aux (n + 1) n []

/-- The decimal text of an integer, with a minus sign when negative. -/
def int_text (z : Int) : List Char :=
  if z < 0 then '-' :: nat_text (-z).toNat else nat_text z.toNat

/-- The items of one line that `binstr_parse` hands to the item code: the
non-empty pieces of the trimmed line, up to the first one that starts with
`#` (lines 155-167). -/
def line_items (line : List Char) : List (List Char) :=
  ((getlines ' ' (trim line)).filter (fun it => it ≠ [])).takeWhile
    (fun it => it.head? ≠ some '#')

/-- The items of a list of lines, in order. -/
def lines_items : List (List Char) → List (List Char)
  | [] => []
  | l :: ls => line_items l ++ lines_items ls

/-- The items of a document, in the order `binstr_parse` processes them. -/
def doc_items (text : List Char) : List (List Char) := lines_items (getlines '\n' text)

/-- Processing a list of items one after the other with the body of the item
loop. -/
def items_run (buflen : Int) : List (List Char) → Int → Outcome
  | [], bitindex => (some bitindex, [])
  | it :: rest, bitindex => and_then (item_step buflen it bitindex) (items_run buflen rest)

/-- The pieces of a text cut at every `d`, the last piece included even when
empty. -/
def split (d : Char) : List Char → List (List Char)
  | [] => [[]]
  | c :: cs =>
    if c = d then [] :: split d cs
    else
      match split d cs with
      | [] => [[c]]
      | l :: ls => (c :: l) :: ls

/-- The items joined into one line with single spaces. -/
def join_items : List (List Char) → List Char
  | [] => []
  | [it] => it
  | it :: rest => it ++ ' ' :: join_items rest

/-- The item text: the numeral `tok`, behind `{L}` when an explicit length
`L` is given. -/
def with_length (L : Option Nat) (tok : List Char) : List Char :=
  match L with
  | none => tok
  | some n => '{' :: (nat_text n ++ '}' :: tok)

/-- Value of a string of decimal digits. -/
def decimal_value (ds : List Char) : Nat :=
  ds.foldl (fun a c => a * 10 + digit_value c) 0

/-- The first `n` bits of a buffer, bit position 0 first. -/
def buffer_bits (buf : Nat → Nat) (n : Nat) : List Bool := (List.range n).map (get_bit buf)

/-- The `n`-bit big-endian representation of `v mod 2^n`: bit `n-1-j` of `v`
at position `j`. -/
def be_bits (v n : Nat) : List Bool := (List.range n).map (fun j => v.testBit (n - 1 - j))

/-- An item that can stand anywhere on a line and be handed to the item code
as it is: not empty, without space or newline, not starting with `*` (a repeat
count) or `#` (a comment), and not starting or ending with a tab or carriage
return (which `trim` would remove at the ends of a line). -/
def plain_item (X : List Char) : Bool :=
  !X.isEmpty && X.all (fun c => c != ' ' && c != '\n') &&
    X.head?.all (fun c => !is_blank c && c != '*' && c != '#') &&
    X.getLast?.all (fun c => !is_blank c)

/-- The white space at the end of a line text is made of spaces only: after
removing the spaces at the end, the text is empty or ends with a character
that `trim` keeps. -/
def spaces_at_end (p : List Char) : Bool :=
  (p.reverse.dropWhile (fun c => c == ' ')).head?.all (fun c => !is_blank c)

/-- The line `p` followed by a space and the comment `#c`. -/
def with_comment (p c : List Char) : List Char := p ++ ' ' :: '#' :: c

/-- The calls of an outcome are contiguous from the cursor `b`, and on
success the new cursor is `b` plus the number of bits written. -/
def well_formed (b : Int) (r : Outcome) : Prop :=
  contiguous b r.2 ∧ ∀ b2, r.1 = some b2 → b2 = b + calls_len r.2

/-- The first `k` bytes of a buffer. -/
def buffer_bytes (buf : Nat → Nat) (k : Nat) : List Nat := (List.range k).map buf

/-- A text made of spaces, tabs and carriage returns only. -/
def is_pad (w : List Char) : Bool := w.all (fun c => c == ' ' || c == '\t' || c == '\r')

/-- Embedding of the C library `vsnprintf(format, size, in, va)` on a
rendering that succeeds, given the complete rendered text: the return value is
the length of the complete text, and the buffer receives at most `size - 1`
characters of it (then the terminator). -/
def vsnprintf (size : Nat) (rendered : List Char) : Int × List Char :=
  ((rendered.length : Int), rendered.take (size - 1))

/-- Embedding of `binstr_snprintf(in, buf, buflen, ...)` (binstr.cc, lines
196-213), `rendered` being the complete text that the format and its arguments
render to; `sizeof(format)` is 2048. -/
def binstr_snprintf (rendered : List Char) (buf : Nat → Nat) (buflen : Int) :
    Int × (Nat → Nat) :=
  let r := vsnprintf 2048 rendered
  if r.1 < 0 then (r.1, buf)
  else if r.1 > 2048 then (-1, buf)
  else binstr_parse r.2 buf buflen

/-! ## The same program with `int` stored in 32 bits

The definitions above read every C `int` as a mathematical integer; they
describe the program exactly as long as no `int` computation leaves the range
`-2^31 .. 2^31 - 1`.  The definitions below, with the suffix `_int`, are the
same functions with every `int` result stored in 32 bits: a value out of range
wraps around modulo `2^32` (two's complement), and `%d` stores `(int) strtol`
of the number read, as the GNU C library does on a 64-bit target. -/

/-- The value of a mathematical integer stored in a 32-bit `int`. -/
def to_int (z : Int) : Int := (z + 2147483648) % 4294967296 - 2147483648

/-- The value returned by `strtol` for the number `z`: `z` itself, or
`LONG_MAX` / `LONG_MIN` when `z` does not fit in 64 bits. -/
def to_long (z : Int) : Int :=
  if z > 9223372036854775807 then 9223372036854775807
  else if z < -9223372036854775808 then -9223372036854775808 else z

/-- Embedding of `sscanf(s, "<c1>%d<c2>%n", &v, &n)` with `v` an `int`: the
number read by `sscanf_d`, stored as `(int) strtol`. -/
def sscanf_d_int (c1 c2 : Char) (s : List Char) : ScanResult :=
  ⟨(sscanf_d c1 c2 s).ret, (sscanf_d c1 c2 s).val.map (fun v => to_int (to_long v)),
    (sscanf_d c1 c2 s).n⟩

/-- The loop `while (bitlen > actual_bitlen)` of `sscanf_item` (lines 82-87)
with 32-bit `int`. -/
def pad_loop_int (bitindex : Int) : Nat → Int → List BitSetCall
  | 0, _ => []
  | k + 1, biti =>
    ⟨to_int (bitindex + biti), 0, 1⟩ :: pad_loop_int bitindex k (to_int (biti + 1))

/-- The digit loop of `sscanf_item` (lines 91-115) with 32-bit `int`: the
sums of line 101, the difference of line 109, `len`, `bitlen` and `biti` are
stored in 32 bits. -/
def digit_loop_int (digitlen actual_bitlen buflen bitindex : Int) :
    List Char → Int → Int → Int × List BitSetCall
  | [], _, biti => (biti, [])
  | c :: cs, bitlen, biti =>
    if digitlen = 4 ∧ ¬ isxdigit c then (-1, [])
    else if digitlen = 1 ∧ c ≠ '0' ∧ c ≠ '1' then (-1, [])
    else if digitlen = 3 ∧ ¬ isodigit c then (-1, [])
    else if to_int (to_int (bitindex + biti) + digitlen) > to_int (buflen * 8) then (-1, [])
    else
      let v : Int := if isdigit c then (c.toNat : Int) - 48 else ((tolower c : Int) - 97) + 10
      let val : Nat := (v % 256).toNat
      let dropbits : Int :=
        if bitlen < actual_bitlen then min digitlen (to_int (actual_bitlen - bitlen)) else 0
      let len := to_int (digitlen - dropbits)
      let r := digit_loop_int digitlen actual_bitlen buflen bitindex cs
        (to_int (bitlen + dropbits)) (to_int (biti + len))
      (r.1, ⟨to_int (bitindex + biti), val, len⟩ :: r.2)

/-- The decimal loop of `sscanf_item` (lines 127-138) with 32-bit `int`. -/
def dec_loop_int (value : Nat) (bitindex : Int) : Nat → Int → Int → Int × List BitSetCall
  | 0, _, biti => (biti, [])
  | fuel + 1, i, biti =>
    if i > 0 then
      let len : Int := if i < 8 then i else 8
      let mask : Nat := 255 >>> (8 - len).toNat
      let rshift := i - 8
      let val : Nat :=
        if rshift ≥ 0 then ((value >>> rshift.toNat) &&& mask) % 256 else (value &&& mask) % 256
      let r := dec_loop_int value bitindex fuel (i - 8) (to_int (biti + len))
      (r.1, ⟨to_int (bitindex + biti), val, len⟩ :: r.2)
    else (biti, [])

/-- Embedding of `sscanf_item` (binstr.cc, lines 57-142) with 32-bit `int`. -/
def sscanf_item_int (item : List Char) (bitlen : Int) (buflen : Int) (bitindex : Int) :
    Int × List BitSetCall :=
  if is_based item then
    let c1 := item.getD 1 '0'
    let digitlen : Int := if c1 = 'x' then 4 else if c1 = 'b' then 1 else 3
    let start_index : Nat := if c1 = 'x' then 2 else if c1 = 'b' then 2 else 1
    let actual_bitlen : Int := to_int (((item.length - start_index : Nat) : Int) * digitlen)
    let npad : Nat := if bitlen = -1 then 0 else (bitlen - actual_bitlen).toNat
    let bitlen1 : Int :=
      if bitlen = -1 then actual_bitlen
      else if bitlen > actual_bitlen then actual_bitlen else bitlen
    let pads := pad_loop_int bitindex npad 0
    let r := digit_loop_int digitlen actual_bitlen buflen bitindex (item.drop start_index)
      bitlen1 (to_int (npad : Int))
    (r.1, pads ++ r.2)
  else
    if bitlen = -1 then (-1, [])
    else if bitlen < 0 ∨ bitlen > 64 then (-1, [])
    else dec_loop_int (strtoull item) bitindex bitlen.toNat bitlen 0

/-- The loop `for (int j = 0; j < rep; ++j)` of `binstr_parse` with 32-bit
`int`. -/
def rep_loop_int (numeral : List Char) (bitlen buflen : Int) : Nat → Int → Outcome
  | 0, bitindex => (some bitindex, [])
  | n + 1, bitindex =>
    let r := sscanf_item_int numeral bitlen buflen bitindex
    if r.1 < 0 then (none, r.2)
    else and_then (some (to_int (bitindex + r.1)), r.2) (rep_loop_int numeral bitlen buflen n)

/-- The repeat count of an item, stored in the `int` `rep`. -/
def item_rep_int (item : List Char) : Int :=
  let s := sscanf_d_int '*' '*' item
  if s.ret < 1 then 1 else s.val.getD 1

/-- The explicit length of an item, stored in the `int` `bitlen`. -/
def item_bitlen_int (item : List Char) : Int :=
  let s := sscanf_d_int '{' '}' (item.drop (item_index item))
  if s.ret < 1 then -1 else s.val.getD (-1)

/-- The body of the item loop for one item (lines 169-187) with 32-bit `int`;
`index` and the numeral do not depend on how the numbers are stored. -/
def item_step_int (buflen : Int) (item : List Char) (bitindex : Int) : Outcome :=
  rep_loop_int (item_numeral item) (item_bitlen_int item) buflen (item_rep_int item).toNat bitindex

/-- The loop over the items of a line with 32-bit `int`. -/
def item_loop_int (buflen : Int) : List (List Char) → Int → Outcome
  | [], bitindex => (some bitindex, [])
  | item :: rest, bitindex =>
    if item = [] then item_loop_int buflen rest bitindex
    else if item.head? = some '#' then (some bitindex, [])
    else and_then (item_step_int buflen item bitindex) (item_loop_int buflen rest)

/-- The loop over the lines of the document with 32-bit `int`. -/
def line_loop_int (buflen : Int) : List (List Char) → Int → Outcome
  | [], bitindex => (some bitindex, [])
  | line :: rest, bitindex =>
    if trim line = [] then line_loop_int buflen rest bitindex
    else and_then (item_loop_int buflen (getlines ' ' (trim line)) bitindex)
      (line_loop_int buflen rest)

/-- The value returned by `binstr_parse` and the `bit_set` calls it makes,
with 32-bit `int`; `Int.tmod` is the C remainder. -/
def binstr_calls_int (text : List Char) (buflen : Int) : Int × List BitSetCall :=
  let r := line_loop_int buflen (getlines '\n' text) 0
  match r.1 with
  | none => (-1, r.2)
  | some b => (b, r.2 ++ [⟨b, 0, to_int (8 - Int.tmod b 8)⟩])

/-- Embedding of `binstr_parse` with 32-bit `int`.  A call whose length is
outside `0..8` or whose offset is negative has no defined effect in C; its
replay here leaves the buffer as it is. -/
def binstr_parse_int (text : List Char) (buf : Nat → Nat) (buflen : Int) : Int × (Nat → Nat) :=
  ((binstr_calls_int text buflen).1, run_calls (binstr_calls_int text buflen).2 buf)

/-- Processing a list of items one after the other, with 32-bit `int`. -/
def items_run_int (buflen : Int) : List (List Char) → Int → Outcome
  | [], bitindex => (some bitindex, [])
  | it :: rest, bitindex =>
    and_then (item_step_int buflen it bitindex) (items_run_int buflen rest)

/-! ## The bit writer, bit by bit -/

theorem testBit_255 (i : Nat) : Nat.testBit 255 i = decide (i < 8) := by
  have : (255 : Nat) = 2 ^ 8 - 1 := by norm_num
  rw [this, Nat.testBit_two_pow_sub_one]

theorem testBit_mod_256 (x i : Nat) : Nat.testBit (x % 256) i = (decide (i < 8) && Nat.testBit x i) := by
  have : (256 : Nat) = 2 ^ 8 := by norm_num
  rw [this, Nat.testBit_mod_two_pow]

theorem testBit_ones (len i : Nat) : Nat.testBit ((1 <<< len) - 1) i = decide (i < len) := by
  rw [Nat.one_shiftLeft, Nat.testBit_two_pow_sub_one]

theorem get_bit_bit_set (buf : Nat → Nat) (b val len p : Nat) (hlen : len ≤ 8) :
    get_bit (bit_set buf b val len) p =
      if b ≤ p ∧ p < b + len then val.testBit (b + len - 1 - p) else get_bit buf p := by
  unfold bit_set get_bit
  by_cases h0 : len = 0
  · subst h0
    have hr : ¬ (b ≤ p ∧ p < b + 0) := by omega
    simp only [if_true, hr, if_false]
  simp only [h0, if_false]
  have e1 : 7 - p % 8 < 8 := by omega
  by_cases hl : (8 : Int) - (len : Int) - ((b % 8 : Nat) : Int) ≥ 0
  · have hn : ¬ ((8 : Int) - (len : Int) - ((b % 8 : Nat) : Int) < 0) := by omega
    have ht : ((8 : Int) - (len : Int) - ((b % 8 : Nat) : Int)).toNat = 8 - len - b % 8 := by omega
    simp only [hl, hn, if_true, if_false, ht]
    by_cases hq : p / 8 = b / 8
    · rw [hq, Function.update_same]
      simp only [testBit_mod_256, Nat.testBit_or, Nat.testBit_and, Nat.testBit_xor, testBit_255,
        Nat.testBit_shiftLeft, testBit_ones]
      by_cases hr : b ≤ p ∧ p < b + len
      · have e2 : 7 - p % 8 ≥ 8 - len - b % 8 := by omega
        have e3 : b + len - 1 - p < len := by omega
        have e4 : 7 - p % 8 - (8 - len - b % 8) = b + len - 1 - p := by omega
        simp [hr, e1, e2, e3, e4]
      · simp only [hr, if_false]
        by_cases e6 : 7 - p % 8 ≥ 8 - len - b % 8
        · have e7 : ¬ (7 - p % 8 - (8 - len - b % 8) < len) := by omega
          simp [e1, e6, e7]
        · simp [e1, e6]
    · rw [Function.update_noteq hq]
      have hr : ¬ (b ≤ p ∧ p < b + len) := by omega
      simp only [hr, if_false]
  · have hn : (8 : Int) - (len : Int) - ((b % 8 : Nat) : Int) < 0 := by omega
    have ht : (-((8 : Int) - (len : Int) - ((b % 8 : Nat) : Int))).toNat = len + b % 8 - 8 := by
      omega
    have ht2 : ((8 : Int) - (len : Int) - ((b % 8 : Nat) : Int) + 8).toNat = 16 - len - b % 8 := by
      omega
    have hne : b / 8 + 1 ≠ b / 8 := by omega
    simp only [hl, hn, if_true, if_false, ht, ht2, Function.update_noteq hne]
    by_cases hq2 : p / 8 = b / 8 + 1
    · rw [hq2, Function.update_same]
      simp only [testBit_mod_256, Nat.testBit_or, Nat.testBit_and, Nat.testBit_xor, testBit_255,
        Nat.testBit_shiftLeft, testBit_ones]
      by_cases hr : b ≤ p ∧ p < b + len
      · have e2 : 7 - p % 8 ≥ 16 - len - b % 8 := by omega
        have e3 : b + len - 1 - p < len := by omega
        have e4 : 7 - p % 8 - (16 - len - b % 8) = b + len - 1 - p := by omega
        simp [hr, e1, e2, e3, e4]
      · have e6 : ¬ (7 - p % 8 ≥ 16 - len - b % 8) := by omega
        simp [hr, e1, e6]
    · rw [Function.update_noteq hq2]
      by_cases hq : p / 8 = b / 8
      · rw [hq, Function.update_same]
        simp only [testBit_mod_256, Nat.testBit_or, Nat.testBit_and, Nat.testBit_xor, testBit_255,
          Nat.testBit_shiftRight, testBit_ones]
        by_cases hr : b ≤ p ∧ p < b + len
        · have e3 : b + len - 1 - p < len := by omega
          have e4 : len + b % 8 - 8 + (7 - p % 8) = b + len - 1 - p := by omega
          simp [hr, e1, e3, e4]
        · have e6 : ¬ (len + b % 8 - 8 + (7 - p % 8) < len) := by omega
          simp [hr, e1, e6]
      · rw [Function.update_noteq hq]
        have hr : ¬ (b ≤ p ∧ p < b + len) := by omega
        simp only [hr, if_false]

/-! ## Replaying contiguous calls -/

theorem run_calls_append (a b : List BitSetCall) (buf : Nat → Nat) :
    run_calls (a ++ b) buf = run_calls b (run_calls a buf) := by
  induction a generalizing buf with
  | nil => rfl
  | cons c cs ih =>
    rw [List.cons_append]
    exact ih (apply_call buf c)

theorem calls_len_append (a b : List BitSetCall) :
    calls_len (a ++ b) = calls_len a + calls_len b := by
  induction a with
  | nil => simp [calls_len]
  | cons c cs ih =>
    rw [List.cons_append]
    show c.len.toNat + calls_len (cs ++ b) = c.len.toNat + calls_len cs + calls_len b
    rw [ih]; omega

theorem calls_value_lt (cs : List BitSetCall) : calls_value cs < 2 ^ calls_len cs := by
  induction cs with
  | nil => simp [calls_value, calls_len]
  | cons c cs ih =>
    simp only [calls_value, calls_len]
    have h1 : c.val % 2 ^ c.len.toNat < 2 ^ c.len.toNat := Nat.mod_lt _ (by positivity)
    have h2 : (c.val % 2 ^ c.len.toNat + 1) * 2 ^ calls_len cs ≤ 2 ^ c.len.toNat * 2 ^ calls_len cs :=
      Nat.mul_le_mul_right _ h1
    rw [pow_add]
    nlinarith

theorem contiguous_append (s : Int) (a b : List BitSetCall) :
    contiguous s (a ++ b) ↔ contiguous s a ∧ contiguous (s + calls_len a) b := by
  induction a generalizing s with
  | nil => simp [contiguous, calls_len]
  | cons c cs ih =>
    rw [List.cons_append]
    show (c.bitindex = s ∧ 0 ≤ c.len ∧ c.len ≤ 8 ∧ contiguous (s + c.len) (cs ++ b)) ↔
      (c.bitindex = s ∧ 0 ≤ c.len ∧ c.len ≤ 8 ∧ contiguous (s + c.len) cs) ∧
        contiguous (s + ((c.len.toNat + calls_len cs : Nat) : Int)) b
    rw [ih]
    constructor
    · rintro ⟨h1, h2, h3, h4, h5⟩
      refine ⟨⟨h1, h2, h3, h4⟩, ?_⟩
      have : s + ((c.len.toNat + calls_len cs : Nat) : Int) = s + c.len + (calls_len cs : Int) := by
        push_cast; omega
      rw [this]; exact h5
    · rintro ⟨⟨h1, h2, h3, h4⟩, h5⟩
      refine ⟨h1, h2, h3, h4, ?_⟩
      have : s + ((c.len.toNat + calls_len cs : Nat) : Int) = s + c.len + (calls_len cs : Int) := by
        push_cast; omega
      rw [← this]; exact h5

theorem testBit_concat (a b n k : Nat) (hb : b < 2 ^ n) :
    (a * 2 ^ n + b).testBit k = if k < n then b.testBit k else a.testBit (k - n) := by
  rw [Nat.mul_comm]
  exact Nat.testBit_mul_pow_two_add a hb k

/-- Bits after replaying contiguous calls that start at bit `s`: inside the
written span the bits of `calls_value`, outside it the old bits. -/
theorem get_bit_run_calls (cs : List BitSetCall) (s : Int) (hs : 0 ≤ s) (buf : Nat → Nat)
    (hc : contiguous s cs) (p : Nat) :
    get_bit (run_calls cs buf) p =
      if s.toNat ≤ p ∧ p < s.toNat + calls_len cs
      then (calls_value cs).testBit (s.toNat + calls_len cs - 1 - p)
      else get_bit buf p := by
  induction cs generalizing s buf with
  | nil =>
    have : ¬ (s.toNat ≤ p ∧ p < s.toNat + 0) := by omega
    simp only [run_calls, calls_len, this, if_false]
  | cons c cs ih =>
    obtain ⟨h1, h2, h3, h4⟩ := hc
    have hs2 : 0 ≤ s + c.len := by omega
    have e1 : (s + c.len).toNat = s.toNat + c.len.toNat := by omega
    have hl : c.len.toNat ≤ 8 := by omega
    rw [run_calls, ih (s + c.len) hs2 _ h4, apply_call, get_bit_bit_set _ _ _ _ _ hl, h1, e1]
    simp only [calls_len, calls_value]
    rw [testBit_concat _ _ _ _ (calls_value_lt cs)]
    by_cases ha : s.toNat + c.len.toNat ≤ p ∧ p < s.toNat + c.len.toNat + calls_len cs
    · have hb : s.toNat ≤ p ∧ p < s.toNat + (c.len.toNat + calls_len cs) := by omega
      have hd : s.toNat + (c.len.toNat + calls_len cs) - 1 - p < calls_len cs := by omega
      have he : s.toNat + c.len.toNat + calls_len cs - 1 - p
          = s.toNat + (c.len.toNat + calls_len cs) - 1 - p := by omega
      simp only [ha, hb, hd, he, and_self, if_true]
    · simp only [ha, if_false]
      by_cases hb : s.toNat ≤ p ∧ p < s.toNat + c.len.toNat
      · have hd : s.toNat ≤ p ∧ p < s.toNat + (c.len.toNat + calls_len cs) := by omega
        have he : ¬ (s.toNat + (c.len.toNat + calls_len cs) - 1 - p < calls_len cs) := by omega
        have hf : s.toNat + (c.len.toNat + calls_len cs) - 1 - p - calls_len cs
            = s.toNat + c.len.toNat - 1 - p := by omega
        have hg : s.toNat + c.len.toNat - 1 - p < c.len.toNat := by omega
        simp only [hb, hd, he, hf, and_self, if_true, if_false, Nat.testBit_mod_two_pow, hg,
          decide_True, Bool.true_and]
      · have hd : ¬ (s.toNat ≤ p ∧ p < s.toNat + (c.len.toNat + calls_len cs)) := by omega
        simp only [hb, hd, if_false]

/-! ## Scanning numbers -/

theorem isdigit_not_isspace {c : Char} (h : isdigit c = true) : isspace c = false := by
  simp only [isdigit, isspace, decide_eq_true_eq, decide_eq_false_iff_not] at *
  omega

theorem isdigit_ne {c e : Char} (h : isdigit c = true) (he : isdigit e = false) : c ≠ e := by
  intro hce
  rw [hce, he] at h
  exact Bool.noConfusion h

theorem scan_digits_append (ds : List Char) (hds : ∀ c ∈ ds, isdigit c = true) (e : Char)
    (he : isdigit e = false) (rest : List Char) (a : Nat) :
    scan_digits a (ds ++ e :: rest) = ((scan_digits a ds).1, e :: rest) := by
  induction ds generalizing a with
  | nil => simp [scan_digits, he]
  | cons d ds ih =>
    have hd : isdigit d = true := hds d (List.mem_cons_self _ _)
    rw [List.cons_append]
    simp only [scan_digits, hd, if_true]
    exact ih (fun c hc => hds c (List.mem_cons_of_mem _ hc)) _

/-- Value of a string of decimal digits. -/
theorem sscanf_d_pos (c1 c2 : Char) (d : Char) (ds rest : List Char)
    (hd : isdigit d = true) (hds : ∀ c ∈ ds, isdigit c = true) (h2 : isdigit c2 = false) :
    sscanf_d c1 c2 (c1 :: ((d :: ds) ++ c2 :: rest)) =
      ⟨1, some ((scan_digits 0 (d :: ds)).1 : Int), some ((d :: ds).length + 2)⟩ := by
  have hall : ∀ c ∈ d :: ds, isdigit c = true := by
    intro c hc
    rcases List.mem_cons.mp hc with h | h
    · rw [h]; exact hd
    · exact hds c h
  have hsp : isspace d = false := isdigit_not_isspace hd
  have hm : d ≠ '-' := isdigit_ne hd (by decide)
  have hp : d ≠ '+' := isdigit_ne hd (by decide)
  have hscan := scan_digits_append (d :: ds) hall c2 h2 rest 0
  rw [List.cons_append] at hscan ⊢
  simp only [sscanf_d, ne_eq, not_true_eq_false, if_false, List.dropWhile_cons, hsp,
    Bool.false_eq_true, List.head?_cons, Option.some.injEq, hm, hp, or_self, hd,
    not_true_eq_false, hscan, if_true, List.length_cons, List.length_append]
  congr 2
  omega

theorem sscanf_d_neg (c1 c2 : Char) (d : Char) (ds rest : List Char)
    (hd : isdigit d = true) (hds : ∀ c ∈ ds, isdigit c = true) (h2 : isdigit c2 = false) :
    sscanf_d c1 c2 (c1 :: '-' :: ((d :: ds) ++ c2 :: rest)) =
      ⟨1, some (-((scan_digits 0 (d :: ds)).1 : Int)), some ((d :: ds).length + 3)⟩ := by
  have hall : ∀ c ∈ d :: ds, isdigit c = true := by
    intro c hc
    rcases List.mem_cons.mp hc with h | h
    · rw [h]; exact hd
    · exact hds c h
  have hsp : isspace '-' = false := by decide
  have hscan := scan_digits_append (d :: ds) hall c2 h2 rest 0
  rw [List.cons_append] at hscan ⊢
  simp only [sscanf_d, ne_eq, not_true_eq_false, if_false, List.dropWhile_cons, hsp,
    Bool.false_eq_true, List.head?_cons, true_or, List.tail_cons, hd,
    not_true_eq_false, hscan, if_true, List.length_cons, List.length_append]
  congr 2
  omega

theorem sscanf_d_mismatch (c1 c2 : Char) (s : List Char) (h : s.head? ≠ some c1) :
    (sscanf_d c1 c2 s).ret < 1 ∧ (sscanf_d c1 c2 s).n = none := by
  cases s with
  | nil => simp [sscanf_d]
  | cons c t =>
    have hc : c ≠ c1 := by
      intro e; apply h; rw [e]; rfl
    simp [sscanf_d, hc]

/-! ## Decimal text of a number -/

theorem char_ofNat_digit (n : Nat) (h : n < 10) :
    (Char.ofNat (48 + n)).toNat = 48 + n ∧ isdigit (Char.ofNat (48 + n)) = true := by
  interval_cases n <;> decide

theorem nat_text_aux_spec (fuel : Nat) : ∀ (n : Nat), n < fuel → ∀ (acc : List Char),
    ∃ d ds, nat_text_aux fuel n acc = (d :: ds) ++ acc ∧ isdigit d = true ∧
      (∀ c ∈ ds, isdigit c = true) ∧ ∀ a, (scan_digits a (d :: ds)).1 = a * 10 ^ (ds.length + 1) + n := by
  induction fuel with
  | zero => intro n h; omega
  | succ fuel ih =>
    intro n hn acc
    by_cases h10 : n < 10
    · refine ⟨Char.ofNat (48 + n), [], ?_, (char_ofNat_digit n h10).2, ?_, ?_⟩
      · simp [nat_text_aux, h10]
      · intro c hc; cases hc
      · intro a
        simp only [scan_digits, (char_ofNat_digit n h10).2, if_true, (char_ofNat_digit n h10).1,
          List.length_nil]
        omega
    · have hlt : n / 10 < fuel := by omega
      have hm : n % 10 < 10 := Nat.mod_lt _ (by norm_num)
      obtain ⟨d, ds, e1, e2, e3, e4⟩ := ih (n / 10) hlt (Char.ofNat (48 + n % 10) :: acc)
      refine ⟨d, ds ++ [Char.ofNat (48 + n % 10)], ?_, e2, ?_, ?_⟩
      · simp only [nat_text_aux, h10, if_false, e1]
        simp
      · intro c hc
        rcases List.mem_append.mp hc with h | h
        · exact e3 c h
        · rw [List.mem_singleton.mp h]; exact (char_ofNat_digit _ hm).2
      · intro a
        have hall : ∀ c ∈ d :: ds, isdigit c = true := by
          intro c hc
          rcases List.mem_cons.mp hc with h | h
          · rw [h]; exact e2
          · exact e3 c h
        have key : ∀ (l : List Char) (b : Nat), (∀ c ∈ l, isdigit c = true) →
            (scan_digits b (l ++ [Char.ofNat (48 + n % 10)])).1
              = (scan_digits b l).1 * 10 + n % 10 := by
          intro l
          induction l with
          | nil =>
            intro b _
            simp only [List.nil_append, scan_digits, (char_ofNat_digit _ hm).2, if_true,
              (char_ofNat_digit _ hm).1]
            omega
          | cons x l ihl =>
            intro b hl
            have hx : isdigit x = true := hl x (List.mem_cons_self _ _)
            rw [List.cons_append]
            simp only [scan_digits, hx, if_true]
            exact ihl _ (fun c hc => hl c (List.mem_cons_of_mem _ hc))
        have := key (d :: ds) a hall
        rw [List.cons_append] at this
        rw [this, e4 a, List.length_append, List.length_singleton]
        have h3 := Nat.div_add_mod n 10
        have h4 : a * 10 ^ (ds.length + 1 + 1) = a * 10 ^ (ds.length + 1) * 10 := by
          rw [pow_succ 10 (ds.length + 1)]; ring
        rw [h4]
        omega

theorem nat_text_spec (n : Nat) :
    ∃ d ds, nat_text n = d :: ds ∧ isdigit d = true ∧
      (∀ c ∈ ds, isdigit c = true) ∧ (scan_digits 0 (d :: ds)).1 = n := by
  obtain ⟨d, ds, e1, e2, e3, e4⟩ := nat_text_aux_spec (n + 1) n (Nat.lt_succ_self n) []
  refine ⟨d, ds, ?_, e2, e3, ?_⟩
  · rw [nat_text, e1, List.append_nil]
  · rw [e4 0]; omega

/-! ## The digit loop -/

theorem pad_loop_ok (s : Int) (k : Nat) (biti : Int) :
    contiguous (s + biti) (pad_loop s k biti) ∧ calls_len (pad_loop s k biti) = k ∧
      calls_value (pad_loop s k biti) = 0 := by
  induction k generalizing biti with
  | zero => simp [pad_loop, contiguous, calls_len, calls_value]
  | succ k ih =>
    obtain ⟨h1, h2, h3⟩ := ih (biti + 1)
    refine ⟨⟨rfl, by show (0 : Int) ≤ 1; omega, by show (1 : Int) ≤ 8; omega, ?_⟩, ?_, ?_⟩
    · show contiguous (s + biti + 1) (pad_loop s k (biti + 1))
      rw [Int.add_assoc]; exact h1
    · show (1 : Int).toNat + calls_len (pad_loop s k (biti + 1)) = k + 1
      rw [h2]; simp; omega
    · show 0 % 2 ^ (1 : Int).toNat * 2 ^ calls_len (pad_loop s k (biti + 1))
        + calls_value (pad_loop s k (biti + 1)) = 0
      rw [h3]; simp

theorem and_then_pure (r : Outcome) : and_then r (fun b => (some b, [])) = r := by
  obtain ⟨o, cs⟩ := r
  cases o <;> simp [and_then]

theorem and_then_some (b : Int) (k : Int → Outcome) : and_then (some b, []) k = k b := by
  simp [and_then]

theorem and_then_assoc (r : Outcome) (f g : Int → Outcome) :
    and_then (and_then r f) g = and_then r (fun b => and_then (f b) g) := by
  obtain ⟨o, cs⟩ := r
  cases o with
  | none => simp [and_then]
  | some b =>
    simp only [and_then]
    cases h : (f b).1 with
    | none => simp
    | some b2 => simp [List.append_assoc]

theorem items_run_append (buflen : Int) (a b : List (List Char)) (bitindex : Int) :
    items_run buflen (a ++ b) bitindex
      = and_then (items_run buflen a bitindex) (items_run buflen b) := by
  induction a generalizing bitindex with
  | nil => simp [items_run, and_then_some]
  | cons it rest ih =>
    rw [List.cons_append]
    simp only [items_run]
    rw [and_then_assoc]
    congr 1
    funext b2
    exact ih b2

theorem item_loop_eq (buflen : Int) (pieces : List (List Char)) (bitindex : Int) :
    item_loop buflen pieces bitindex
      = items_run buflen ((pieces.filter (fun it => it ≠ [])).takeWhile
          (fun it => it.head? ≠ some '#')) bitindex := by
  induction pieces generalizing bitindex with
  | nil => simp [item_loop, items_run]
  | cons it rest ih =>
    by_cases h1 : it = []
    · simp only [item_loop, h1, if_true]
      rw [ih]
      simp
    · by_cases h2 : it.head? = some '#'
      · simp [item_loop, h1, h2, items_run]
      · simp only [item_loop, h1, h2, if_false]
        have : (List.filter (fun it => decide (it ≠ [])) (it :: rest)).takeWhile
            (fun it => decide (it.head? ≠ some '#'))
            = it :: ((List.filter (fun it => decide (it ≠ [])) rest).takeWhile
              (fun it => decide (it.head? ≠ some '#'))) := by
          simp [h1, h2]
        rw [this]
        simp only [items_run]
        congr 1
        funext b2
        exact ih b2

theorem line_items_of_trim_nil (line : List Char) (h : trim line = []) : line_items line = [] := by
  simp [line_items, h, getlines]

theorem line_loop_eq (buflen : Int) (lines : List (List Char)) (bitindex : Int) :
    line_loop buflen lines bitindex = items_run buflen (lines_items lines) bitindex := by
  induction lines generalizing bitindex with
  | nil => simp [line_loop, lines_items, items_run]
  | cons l ls ih =>
    by_cases h : trim l = []
    · simp only [line_loop, h, if_true, lines_items, line_items_of_trim_nil l h, List.nil_append]
      exact ih bitindex
    · simp only [line_loop, h, if_false, lines_items]
      rw [items_run_append, item_loop_eq]
      congr 1
      funext b2
      exact ih b2

/-- The driver is the run over the items of the document, followed by the
final `bit_set` when no item failed. -/
theorem binstr_calls_eq (text : List Char) (buflen : Int) :
    binstr_calls text buflen =
      match (items_run buflen (doc_items text) 0).1 with
      | none => (-1, (items_run buflen (doc_items text) 0).2)
      | some b => (b, (items_run buflen (doc_items text) 0).2 ++ [⟨b, 0, 8 - b % 8⟩]) := by
  simp only [binstr_calls, line_loop_eq, doc_items]

/-! ## Cutting a text into pieces -/

theorem split_ne_nil (d : Char) (s : List Char) : split d s ≠ [] := by
  cases s with
  | nil => simp [split]
  | cons c cs =>
    by_cases h : c = d
    · simp [split, h]
    · simp only [split, h, if_false]
      cases split d cs <;> simp

theorem split_getlines (d : Char) (s : List Char) :
    split d s = getlines d s ∨ split d s = getlines d s ++ [[]] := by
  induction s with
  | nil => right; simp [split, getlines]
  | cons c cs ih =>
    by_cases h : c = d
    · simp only [split, getlines, h, if_true]
      rcases ih with e | e
      · left; rw [e]
      · right; rw [e]; rfl
    · simp only [split, getlines, h, if_false]
      rcases ih with e | e
      · left; rw [e]
      · rw [e]
        cases hg : getlines d cs with
        | nil => left; rfl
        | cons l ls => right; rfl

theorem filter_getlines (d : Char) (s : List Char) :
    (getlines d s).filter (fun it => it ≠ []) = (split d s).filter (fun it => it ≠ []) := by
  rcases split_getlines d s with e | e <;> rw [e]
  simp

theorem split_append (d : Char) (a b : List Char) :
    split d (a ++ d :: b) = split d a ++ split d b := by
  induction a with
  | nil => simp [split]
  | cons c cs ih =>
    rw [List.cons_append]
    by_cases h : c = d
    · simp only [split, h, if_true, ih, List.cons_append]
    · simp only [split, h, if_false, ih]
      cases hs : split d cs with
      | nil => exact absurd hs (split_ne_nil d cs)
      | cons l ls => rfl

theorem split_single (d : Char) (a : List Char) (h : d ∉ a) : split d a = [a] := by
  induction a with
  | nil => rfl
  | cons c cs ih =>
    have hc : c ≠ d := fun e => h (by rw [e]; exact List.mem_cons_self _ _)
    have hcs : d ∉ cs := fun e => h (List.mem_cons_of_mem _ e)
    simp only [split, hc, if_false, ih hcs]

theorem split_no_delim (d : Char) (s : List Char) : ∀ p ∈ split d s, d ∉ p := by
  induction s with
  | nil => intro p hp; simp [split] at hp; rw [hp]; exact List.not_mem_nil _
  | cons c cs ih =>
    intro p hp
    by_cases h : c = d
    · simp only [split, h, if_true, List.mem_cons] at hp
      rcases hp with rfl | hp
      · exact List.not_mem_nil _
      · exact ih p hp
    · simp only [split, h, if_false] at hp
      cases hs : split d cs with
      | nil => exact absurd hs (split_ne_nil d cs)
      | cons l ls =>
        rw [hs] at hp ih
        rcases List.mem_cons.mp hp with rfl | hp
        · intro hm
          rcases List.mem_cons.mp hm with e | e
          · exact h e.symm
          · exact ih l (List.mem_cons_self _ _) e
        · exact ih p (List.mem_cons_of_mem _ hp)

theorem lines_items_append (a b : List (List Char)) :
    lines_items (a ++ b) = lines_items a ++ lines_items b := by
  induction a with
  | nil => rfl
  | cons l ls ih =>
    rw [List.cons_append]
    simp only [lines_items, ih, List.append_assoc]

theorem line_items_nil : line_items [] = [] := by
  simp [line_items, trim, ltrim, rtrim, getlines]

theorem doc_items_eq_split (text : List Char) :
    doc_items text = lines_items (split '\n' text) := by
  rcases split_getlines '\n' text with e | e <;> rw [doc_items, e]
  rw [lines_items_append]
  simp [lines_items, line_items_nil]

theorem line_items_eq_split (line : List Char) :
    line_items line = ((split ' ' (trim line)).filter (fun it => it ≠ [])).takeWhile
      (fun it => it.head? ≠ some '#') := by
  rw [line_items, filter_getlines]

/-! ## Trimming -/

theorem dropWhile_eq_self (p : Char → Bool) (l : List Char)
    (h : ∀ c, l.head? = some c → p c = false) : l.dropWhile p = l := by
  cases l with
  | nil => rfl
  | cons c cs => simp [List.dropWhile, h c rfl]

theorem trim_eq_self (s : List Char) (h1 : ∀ c, s.head? = some c → is_blank c = false)
    (h2 : ∀ c, s.getLast? = some c → is_blank c = false) : trim s = s := by
  have hr : rtrim s = s := by
    rw [rtrim, dropWhile_eq_self, List.reverse_reverse]
    intro c hc
    rw [List.head?_reverse] at hc
    exact h2 c hc
  rw [trim, hr, ltrim, dropWhile_eq_self _ _ h1]

/-! ## A line of joined items -/

theorem join_items_cons2 (a b : List Char) (rest : List (List Char)) :
    join_items (a :: b :: rest) = a ++ ' ' :: join_items (b :: rest) := rfl

theorem join_items_ne_nil (it : List Char) (rest : List (List Char)) (h : it ≠ []) :
    join_items (it :: rest) ≠ [] := by
  cases rest with
  | nil => exact h
  | cons b rest => rw [join_items_cons2]; simp [h]

theorem join_items_head (it : List Char) (rest : List (List Char)) (h : it ≠ []) :
    (join_items (it :: rest)).head? = it.head? := by
  cases rest with
  | nil => rfl
  | cons b rest =>
    rw [join_items_cons2]
    cases it with
    | nil => exact absurd rfl h
    | cons c cs => rfl

theorem join_items_last (its : List (List Char)) (hne : ∀ it ∈ its, it ≠ []) :
    ∀ it, its.getLast? = some it → (join_items its).getLast? = it.getLast? := by
  induction its with
  | nil => intro it h; simp at h
  | cons a rest ih =>
    cases rest with
    | nil =>
      intro it h
      simp at h
      rw [← h]; rfl
    | cons b rest =>
      intro it h
      rw [List.getLast?_cons_cons] at h
      have hne2 : ∀ it ∈ b :: rest, it ≠ [] := fun it hit => hne it (List.mem_cons_of_mem _ hit)
      have hj := join_items_ne_nil b rest (hne b (List.mem_cons_of_mem _ (List.mem_cons_self _ _)))
      rw [join_items_cons2, List.getLast?_append_of_ne_nil _ (by simp)]
      cases hjj : join_items (b :: rest) with
      | nil => exact absurd hjj hj
      | cons x xs =>
        rw [List.getLast?_cons_cons, ← hjj]
        exact ih hne2 it h

theorem join_items_no (d : Char) (hd : d ≠ ' ') (its : List (List Char))
    (h : ∀ it ∈ its, d ∉ it) : d ∉ join_items its := by
  induction its with
  | nil => exact List.not_mem_nil _
  | cons a rest ih =>
    cases rest with
    | nil => exact h a (List.mem_cons_self _ _)
    | cons b rest =>
      rw [join_items_cons2]
      intro hm
      rcases List.mem_append.mp hm with e | e
      · exact h a (List.mem_cons_self _ _) e
      · rcases List.mem_cons.mp e with e | e
        · exact hd e
        · exact ih (fun it hit => h it (List.mem_cons_of_mem _ hit)) e

theorem split_join_items (its : List (List Char)) (hnil : its ≠ [])
    (hsp : ∀ it ∈ its, ' ' ∉ it) : split ' ' (join_items its) = its := by
  induction its with
  | nil => exact absurd rfl hnil
  | cons a rest ih =>
    cases rest with
    | nil => exact split_single _ _ (hsp a (List.mem_cons_self _ _))
    | cons b rest =>
      rw [join_items_cons2, split_append, split_single _ _ (hsp a (List.mem_cons_self _ _)),
        ih (by simp) (fun it hit => hsp it (List.mem_cons_of_mem _ hit))]
      rfl

/-- A line made of items joined by single spaces is read back as these items. -/
theorem doc_items_join (its : List (List Char))
    (hne : ∀ it ∈ its, it ≠ []) (hsp : ∀ it ∈ its, ' ' ∉ it) (hnl : ∀ it ∈ its, '\n' ∉ it)
    (hcm : ∀ it ∈ its, it.head? ≠ some '#')
    (hfirst : ∀ it c, its.head? = some it → it.head? = some c → is_blank c = false)
    (hlast : ∀ it c, its.getLast? = some it → it.getLast? = some c → is_blank c = false) :
    doc_items (join_items its) = its := by
  cases its with
  | nil => rfl
  | cons a rest =>
    have ha : a ≠ [] := hne a (List.mem_cons_self _ _)
    have hJ : '\n' ∉ join_items (a :: rest) := join_items_no '\n' (by decide) _ hnl
    have htrim : trim (join_items (a :: rest)) = join_items (a :: rest) := by
      apply trim_eq_self
      · intro c hc
        rw [join_items_head a rest ha] at hc
        exact hfirst a c rfl hc
      · intro c hc
        obtain ⟨l, hl⟩ := Option.isSome_iff_exists.mp
          (List.getLast?_isSome.mpr (List.cons_ne_nil a rest))
        rw [join_items_last _ hne l hl] at hc
        exact hlast l c hl hc
    rw [doc_items_eq_split, split_single _ _ hJ]
    simp only [lines_items, List.append_nil]
    rw [line_items_eq_split, htrim, split_join_items _ (List.cons_ne_nil a rest) hsp]
    have hf : List.filter (fun it => decide (it ≠ [])) (a :: rest) = a :: rest := by
      rw [List.filter_eq_self]
      intro it hit
      simpa using hne it hit
    rw [hf, List.takeWhile_eq_self_iff]
    intro it hit
    simpa using hcm it hit

/-! ## Texts made of a single item -/

theorem rep_loop_one (num : List Char) (bitlen buflen b : Int) :
    rep_loop num bitlen buflen 1 b =
      if (sscanf_item num bitlen buflen b).1 < 0 then (none, (sscanf_item num bitlen buflen b).2)
      else (some (b + (sscanf_item num bitlen buflen b).1), (sscanf_item num bitlen buflen b).2) := by
  simp only [rep_loop]
  split
  · rfl
  · simp [and_then]

/-- A text that is one item with repeat count 1: `binstr_parse` is one call
of `sscanf_item` at cursor 0, then the final `bit_set`. -/
theorem single_item_calls (text : List Char) (buflen : Int) (hdoc : doc_items text = [text])
    (hrep : item_rep text = 1) :
    binstr_calls text buflen =
      if (sscanf_item (item_numeral text) (item_bitlen text) buflen 0).1 < 0
      then (-1, (sscanf_item (item_numeral text) (item_bitlen text) buflen 0).2)
      else ((sscanf_item (item_numeral text) (item_bitlen text) buflen 0).1,
        (sscanf_item (item_numeral text) (item_bitlen text) buflen 0).2 ++
          [⟨(sscanf_item (item_numeral text) (item_bitlen text) buflen 0).1, 0,
            8 - (sscanf_item (item_numeral text) (item_bitlen text) buflen 0).1 % 8⟩]) := by
  rw [binstr_calls_eq, hdoc]
  simp only [items_run, and_then_pure, item_step, hrep]
  rw [show (1 : Int).toNat = 1 from rfl, rep_loop_one]
  by_cases h : (sscanf_item (item_numeral text) (item_bitlen text) buflen 0).1 < 0
  · simp only [h, if_true]
  · simp only [h, if_false, Int.zero_add]

theorem doc_items_single (text : List Char) (hne : text ≠ [])
    (hplain : ∀ c ∈ text, is_blank c = false) (hcm : text.head? ≠ some '#') :
    doc_items text = [text] := by
  have := doc_items_join [text]
    (by intro it hit; rw [List.mem_singleton.mp hit]; exact hne)
    (by
      intro it hit; rw [List.mem_singleton.mp hit]
      intro h; have := hplain _ h; revert this; decide)
    (by
      intro it hit; rw [List.mem_singleton.mp hit]
      intro h; have := hplain _ h; revert this; decide)
    (by intro it hit; rw [List.mem_singleton.mp hit]; exact hcm)
    (by
      intro it c h1 h2
      simp only [List.head?_cons, Option.some.injEq] at h1
      rw [← h1] at h2
      exact hplain c (List.mem_of_mem_head? h2))
    (by
      intro it c h1 h2
      simp only [List.getLast?_singleton, Option.some.injEq] at h1
      rw [← h1] at h2
      exact hplain c (List.mem_of_mem_getLast? h2))
  exact this

theorem isdigit_not_blank {c : Char} (h : isdigit c = true) : is_blank c = false := by
  have h1 : c ≠ ' ' := isdigit_ne h (by decide)
  have h2 : c ≠ '\n' := isdigit_ne h (by decide)
  have h3 : c ≠ '\r' := isdigit_ne h (by decide)
  have h4 : c ≠ '\t' := isdigit_ne h (by decide)
  simp [is_blank, h1, h2, h3, h4]

/-- The item `{L}tok`: no repeat prefix, explicit length `L`, numeral `tok`. -/
theorem braced_item (L : Nat) (tok : List Char)
    (hplain : ∀ c ∈ tok, is_blank c = false) :
    doc_items ('{' :: (nat_text L ++ '}' :: tok)) = ['{' :: (nat_text L ++ '}' :: tok)] ∧
    item_rep ('{' :: (nat_text L ++ '}' :: tok)) = 1 ∧
    item_bitlen ('{' :: (nat_text L ++ '}' :: tok)) = L ∧
    item_numeral ('{' :: (nat_text L ++ '}' :: tok)) = tok := by
  obtain ⟨d, ds, e1, e2, e3, e4⟩ := nat_text_spec L
  have hmis := sscanf_d_mismatch '*' '*' ('{' :: (nat_text L ++ '}' :: tok)) (by simp)
  have hidx : item_index ('{' :: (nat_text L ++ '}' :: tok)) = 0 := by
    simp [item_index, hmis.2]
  have hsc := sscanf_d_pos '{' '}' d ds tok e2 e3 (by decide)
  rw [e4, ← e1] at hsc
  refine ⟨?_, ?_, ?_, ?_⟩
  · apply doc_items_single _ (by simp) _ (by simp)
    intro c hc
    rcases List.mem_cons.mp hc with h | h
    · rw [h]; decide
    · rcases List.mem_append.mp h with h | h
      · rw [e1] at h
        rcases List.mem_cons.mp h with h | h
        · rw [h]; exact isdigit_not_blank e2
        · exact isdigit_not_blank (e3 c h)
      · rcases List.mem_cons.mp h with h | h
        · rw [h]; decide
        · exact hplain c h
  · simp [item_rep, hmis.1]
  · simp only [item_bitlen, hidx, List.drop_zero, hsc]
    simp
  · simp only [item_numeral, hidx, List.drop_zero, hsc, Option.getD_some, Nat.zero_add]
    have : (nat_text L).length + 2 = ('{' :: (nat_text L ++ ['}'])).length := by simp
    rw [this]
    have e : '{' :: (nat_text L ++ '}' :: tok) = ('{' :: (nat_text L ++ ['}'])) ++ tok := by simp
    rw [e, List.drop_left]

/-- The item `tok` without any prefix. -/
theorem bare_item (tok : List Char) (hne : tok ≠ [])
    (hplain : ∀ c ∈ tok, is_blank c = false)
    (h1 : tok.head? ≠ some '*') (h2 : tok.head? ≠ some '{') (h3 : tok.head? ≠ some '#') :
    doc_items tok = [tok] ∧ item_rep tok = 1 ∧ item_bitlen tok = -1 ∧ item_numeral tok = tok := by
  have hmis := sscanf_d_mismatch '*' '*' tok h1
  have hidx : item_index tok = 0 := by simp [item_index, hmis.2]
  have hmis2 := sscanf_d_mismatch '{' '}' tok h2
  refine ⟨doc_items_single tok hne hplain h3, ?_, ?_, ?_⟩
  · simp [item_rep, hmis.1]
  · simp [item_bitlen, hidx, hmis2.1]
  · simp [item_numeral, hidx, hmis2.2]

/-! ## Hexadecimal, octal and binary items -/

/-- Bits of the buffer after a successful parse whose calls before the final
one are contiguous from bit 0. -/
theorem bits_of_parse (text : List Char) (buf : Nat → Nat) (buflen : Int) (T : Int)
    (cs : List BitSetCall) (hT : 0 ≤ T)
    (hcalls : binstr_calls text buflen = (T, cs ++ [⟨T, 0, 8 - T % 8⟩]))
    (hc : contiguous 0 cs) (hl : (calls_len cs : Int) = T) (j : Nat) (hj : (j : Int) < T) :
    get_bit (binstr_parse text buf buflen).2 j = (calls_value cs).testBit (T.toNat - 1 - j) := by
  simp only [binstr_parse, hcalls]
  rw [run_calls_append]
  simp only [run_calls, apply_call]
  rw [get_bit_bit_set _ _ _ _ _ (by omega)]
  have h1 : ¬ (T.toNat ≤ j ∧ j < T.toNat + (8 - T % 8).toNat) := by omega
  simp only [h1, if_false]
  rw [get_bit_run_calls cs 0 (le_refl 0) buf hc j]
  have h2 : (0 : Int).toNat ≤ j ∧ j < (0 : Int).toNat + calls_len cs := by
    constructor
    · simp
    · have : (j : Int) < calls_len cs := by rw [hl]; exact hj
      simp; exact_mod_cast this
  have h3 : (0 : Int).toNat + calls_len cs - 1 - j = T.toNat - 1 - j := by
    have : calls_len cs = T.toNat := by omega
    simp [this]
  simp only [h2, and_self, if_true, h3]

/-! ## Decimal items -/

theorem isdigit_digit_value {c : Char} (h : isdigit c = true) : c.toNat - 48 = digit_value c := by
  simp only [isdigit, decide_eq_true_eq] at h
  simp [digit_value, h]

theorem scan_digits_all (ds : List Char) (h : ∀ c ∈ ds, isdigit c = true) (a : Nat) :
    scan_digits a ds = (ds.foldl (fun a c => a * 10 + digit_value c) a, []) := by
  induction ds generalizing a with
  | nil => rfl
  | cons c cs ih =>
    have hc := h c (List.mem_cons_self _ _)
    simp only [scan_digits, hc, if_true, List.foldl_cons, isdigit_digit_value hc]
    exact ih (fun c hc => h c (List.mem_cons_of_mem _ hc)) _

theorem strtoull_digits (ds : List Char) (hne : ds ≠ []) (h : ∀ c ∈ ds, isdigit c = true) :
    strtoull ds = if decimal_value ds ≥ 2 ^ 64 then 2 ^ 64 - 1 else decimal_value ds := by
  cases ds with
  | nil => exact absurd rfl hne
  | cons d ds =>
    have hd := h d (List.mem_cons_self _ _)
    have hsp : isspace d = false := isdigit_not_isspace hd
    have hm : d ≠ '-' := isdigit_ne hd (by decide)
    have hp : d ≠ '+' := isdigit_ne hd (by decide)
    simp only [strtoull, List.dropWhile_cons, hsp, Bool.false_eq_true, if_false, List.head?_cons,
      Option.some.injEq, hm, hp, or_self, scan_digits_all (d :: ds) h 0, decide_False]
    rfl

theorem mask_eq (n : Nat) (h : n ≤ 8) : 255 >>> (8 - n) = 2 ^ n - 1 := by
  interval_cases n <;> rfl

/-- The decimal loop writes the `i` low bits of `value`, most significant
first, as contiguous chunks. -/
theorem dec_loop_ok (v : Nat) (s : Int) (fuel : Nat) : ∀ (i biti : Int), i ≤ fuel →
    (dec_loop v s fuel i biti).1 = biti + max i 0 ∧
    contiguous (s + biti) (dec_loop v s fuel i biti).2 ∧
    calls_len (dec_loop v s fuel i biti).2 = i.toNat ∧
    calls_value (dec_loop v s fuel i biti).2 = v % 2 ^ i.toNat := by
  induction fuel with
  | zero =>
    intro i biti hi
    have hz : i.toNat = 0 := by omega
    have e : dec_loop v s 0 i biti = (biti, []) := rfl
    rw [e, hz, pow_zero, Nat.mod_one]
    exact ⟨by show biti = biti + max i 0; omega, trivial, rfl, rfl⟩
  | succ fuel ih =>
    intro i biti hi
    by_cases hpos : i > 0
    · simp only [dec_loop, hpos, if_true]
      by_cases h8 : i < 8
      · obtain ⟨r1, r2, r3, r4⟩ := ih (i - 8) (biti + i) (by omega)
        have hz : (i - 8).toNat = 0 := by omega
        rw [hz] at r3 r4
        have hn : ¬ (i - 8 ≥ 0) := by omega
        have hm : 255 >>> (8 - i).toNat = 2 ^ i.toNat - 1 := by
          have : (8 - i).toNat = 8 - i.toNat := by omega
          rw [this]; exact mask_eq _ (by omega)
        simp only [h8, if_true, hn, if_false, hm]
        refine ⟨by rw [r1]; omega, ⟨rfl, by show 0 ≤ i; omega, by show i ≤ 8; omega, ?_⟩, ?_, ?_⟩
        · show contiguous (s + biti + i) (dec_loop v s fuel (i - 8) (biti + i)).2
          rw [Int.add_assoc]; exact r2
        · show i.toNat + calls_len (dec_loop v s fuel (i - 8) (biti + i)).2 = i.toNat
          rw [r3]; rfl
        · show (v &&& (2 ^ i.toNat - 1)) % 256 % 2 ^ i.toNat
              * 2 ^ calls_len (dec_loop v s fuel (i - 8) (biti + i)).2
              + calls_value (dec_loop v s fuel (i - 8) (biti + i)).2 = v % 2 ^ i.toNat
          rw [r3, r4, Nat.and_pow_two_sub_one_eq_mod]
          have hlt : v % 2 ^ i.toNat < 256 := by
            have h1 : v % 2 ^ i.toNat < 2 ^ i.toNat := Nat.mod_lt _ (by positivity)
            have h2 : 2 ^ i.toNat ≤ 2 ^ 8 := Nat.pow_le_pow_right (by norm_num) (by omega)
            omega
          rw [Nat.mod_eq_of_lt hlt, Nat.mod_mod, pow_zero, Nat.mod_one, Nat.mul_one,
            Nat.add_zero]
      · obtain ⟨r1, r2, r3, r4⟩ := ih (i - 8) (biti + 8) (by omega)
        have hge : i - 8 ≥ 0 := by omega
        simp only [h8, if_false, hge, if_true]
        refine ⟨by rw [r1]; omega, ⟨rfl, by show (0 : Int) ≤ 8; omega,
          by show (8 : Int) ≤ 8; omega, ?_⟩, ?_, ?_⟩
        · show contiguous (s + biti + 8) (dec_loop v s fuel (i - 8) (biti + 8)).2
          rw [Int.add_assoc]; exact r2
        · show (8 : Int).toNat + calls_len (dec_loop v s fuel (i - 8) (biti + 8)).2 = i.toNat
          rw [r3]; omega
        · show (v >>> (i - 8).toNat &&& 255 >>> ((8 : Int) - 8).toNat) % 256 % 2 ^ (8 : Int).toNat
              * 2 ^ calls_len (dec_loop v s fuel (i - 8) (biti + 8)).2
              + calls_value (dec_loop v s fuel (i - 8) (biti + 8)).2 = v % 2 ^ i.toNat
          rw [r3, r4]
          have e1 : (255 : Nat) >>> ((8 : Int) - 8).toNat = 2 ^ 8 - 1 := rfl
          have e2 : (8 : Int).toNat = 8 := rfl
          have e3 : i.toNat = (i - 8).toNat + 8 := by omega
          rw [e1, e2, Nat.and_pow_two_sub_one_eq_mod, Nat.shiftRight_eq_div_pow, e3, pow_add,
            Nat.mod_mul]
          have h256 : (2 : Nat) ^ 8 = 256 := by norm_num
          rw [h256]
          simp only [Nat.mod_mod]
          ring
    · have hz : i.toNat = 0 := by omega
      have e : dec_loop v s (fuel + 1) i biti = (biti, []) := by
        simp only [dec_loop, hpos, if_false]
      rw [e, hz, pow_zero, Nat.mod_one]
      exact ⟨by show biti = biti + max i 0; omega, trivial, rfl, rfl⟩

/-- The decimal branch of `sscanf_item` for a length in `0..64`. -/
theorem sscanf_item_decimal (d : List Char) (hnb : is_based d = false) (L : Nat) (hL : L ≤ 64)
    (buflen s : Int) :
    (sscanf_item d L buflen s).1 = L ∧ contiguous s (sscanf_item d L buflen s).2 ∧
    calls_len (sscanf_item d L buflen s).2 = L ∧
    calls_value (sscanf_item d L buflen s).2 = strtoull d % 2 ^ L := by
  have h1 : ¬ ((L : Int) = -1) := by omega
  have h2 : ¬ ((L : Int) < 0 ∨ (L : Int) > 64) := by omega
  simp only [sscanf_item, hnb, Bool.false_eq_true, if_false, h1, h2]
  obtain ⟨r1, r2, r3, r4⟩ := dec_loop_ok (strtoull d) s (L : Int).toNat (L : Int) 0 (by simp)
  refine ⟨by rw [r1]; omega, by simpa using r2, by rw [r3]; simp, by rw [r4]; simp⟩

/-- The decimal branch of `sscanf_item` fails without an explicit length and
for a length outside `0..64`. -/
theorem sscanf_item_decimal_fail (d : List Char) (hnb : is_based d = false) (L : Int)
    (hL : L < 0 ∨ 64 < L) (buflen s : Int) : sscanf_item d L buflen s = (-1, []) := by
  simp only [sscanf_item, hnb, Bool.false_eq_true, if_false]
  by_cases h1 : L = -1
  · simp [h1]
  · have h2 : L < 0 ∨ L > 64 := hL
    simp [h1, h2]

/-! ## Every call is well placed -/

theorem contiguous_all (cs : List BitSetCall) (s : Int) (hs : 0 ≤ s) (hc : contiguous s cs) :
    ∀ c ∈ cs, 0 ≤ c.len ∧ c.len ≤ 8 ∧ 0 ≤ c.bitindex := by
  induction cs generalizing s with
  | nil => intro c hc; cases hc
  | cons x xs ih =>
    obtain ⟨h1, h2, h3, h4⟩ := hc
    intro c hm
    rcases List.mem_cons.mp hm with e | e
    · rw [e]; exact ⟨h2, h3, by omega⟩
    · exact ih (s + x.len) (by omega) h4 c e

theorem digit_loop_contig (dl : Int) (hdl : 0 ≤ dl ∧ dl ≤ 8) (A buflen s : Int) (ds : List Char)
    (bl biti : Int) :
    contiguous (s + biti) (digit_loop dl A buflen s ds bl biti).2 ∧
    ((digit_loop dl A buflen s ds bl biti).1 = -1 ∨
      (digit_loop dl A buflen s ds bl biti).1
        = biti + calls_len (digit_loop dl A buflen s ds bl biti).2) := by
  induction ds generalizing bl biti with
  | nil => simp [digit_loop, contiguous, calls_len]
  | cons c cs ih =>
    simp only [digit_loop]
    split
    · exact ⟨trivial, Or.inl rfl⟩
    · split
      · exact ⟨trivial, Or.inl rfl⟩
      · split
        · exact ⟨trivial, Or.inl rfl⟩
        · split
          · exact ⟨trivial, Or.inl rfl⟩
          · set drop : Int := if bl < A then min dl (A - bl) else 0 with hdrop
            have hd : 0 ≤ drop ∧ drop ≤ dl := by
              rw [hdrop]
              split <;> omega
            obtain ⟨i1, i2⟩ := ih (bl + drop) (biti + (dl - drop))
            refine ⟨⟨rfl, by show 0 ≤ dl - drop; omega, by show dl - drop ≤ 8; omega, ?_⟩, ?_⟩
            · show contiguous (s + biti + (dl - drop)) _
              rw [Int.add_assoc]; exact i1
            · rcases i2 with e | e
              · left; exact e
              · right
                show (digit_loop dl A buflen s cs (bl + drop) (biti + (dl - drop))).1
                  = biti + (((dl - drop).toNat
                    + calls_len (digit_loop dl A buflen s cs (bl + drop) (biti + (dl - drop))).2
                      : Nat) : Int)
                rw [e]; push_cast
                rw [Int.toNat_of_nonneg (by omega)]
                ring

/-- The calls of `sscanf_item` are contiguous from the cursor, and its
return value is `-1` or the number of bits they write. -/
theorem sscanf_item_contig (item : List Char) (bitlen buflen s : Int) :
    contiguous s (sscanf_item item bitlen buflen s).2 ∧
    ((sscanf_item item bitlen buflen s).1 = -1 ∨
      (sscanf_item item bitlen buflen s).1 = calls_len (sscanf_item item bitlen buflen s).2) := by
  by_cases hb : is_based item = true
  · simp only [sscanf_item, hb, if_true]
    generalize hdl : (if item.getD 1 '0' = 'x' then (4 : Int)
      else if item.getD 1 '0' = 'b' then 1 else 3) = dl
    have hdl2 : 0 ≤ dl ∧ dl ≤ 8 := by
      rw [← hdl]; split
      · omega
      · split <;> omega
    generalize (if item.getD 1 '0' = 'x' then 2 else if item.getD 1 '0' = 'b' then 2 else 1) = st
    generalize hnp : (if bitlen = -1 then 0
      else (bitlen - ((item.length - st : Nat) : Int) * dl).toNat) = npad
    generalize (if bitlen = -1 then ((item.length - st : Nat) : Int) * dl
      else if bitlen > ((item.length - st : Nat) : Int) * dl
        then ((item.length - st : Nat) : Int) * dl else bitlen) = bl1
    obtain ⟨d1, d2⟩ := digit_loop_contig dl hdl2 (((item.length - st : Nat) : Int) * dl) buflen s
      (item.drop st) bl1 npad
    obtain ⟨p1, p2, p3⟩ := pad_loop_ok s npad 0
    refine ⟨?_, ?_⟩
    · rw [contiguous_append]
      exact ⟨by simpa using p1, by rw [p2]; exact d1⟩
    · rcases d2 with e | e
      · left; exact e
      · right
        rw [calls_len_append, p2]
        push_cast
        exact e
  · have hb2 : is_based item = false := by simpa using hb
    simp only [sscanf_item, hb2, Bool.false_eq_true, if_false]
    split
    · exact ⟨trivial, Or.inl rfl⟩
    · split
      · exact ⟨trivial, Or.inl rfl⟩
      · rename_i h1 h2
        obtain ⟨r1, r2, r3, r4⟩ := dec_loop_ok (strtoull item) s bitlen.toNat bitlen 0 (by omega)
        refine ⟨by simpa using r2, Or.inr ?_⟩
        rw [r1, r3]; omega

theorem well_formed_and_then (b : Int) (r : Outcome) (k : Int → Outcome)
    (hr : well_formed b r) (hk : ∀ b2, well_formed b2 (k b2)) : well_formed b (and_then r k) := by
  obtain ⟨o, cs⟩ := r
  obtain ⟨h1, h2⟩ := hr
  cases o with
  | none => exact ⟨h1, fun b2 h => by simp [and_then] at h⟩
  | some b1 =>
    have e := h2 b1 rfl
    obtain ⟨k1, k2⟩ := hk b1
    refine ⟨?_, ?_⟩
    · show contiguous b (cs ++ (k b1).2)
      rw [contiguous_append]
      refine ⟨h1, ?_⟩
      have : b + (calls_len cs : Int) = b1 := by rw [e]
      rw [this]; exact k1
    · intro b2 hb2
      have := k2 b2 hb2
      show b2 = b + ((calls_len (cs ++ (k b1).2) : Nat) : Int)
      rw [calls_len_append, this, e]
      push_cast
      show b + (calls_len cs : Int) + _ = _
      ring

theorem rep_loop_well_formed (num : List Char) (bitlen buflen : Int) (n : Nat) (b : Int) :
    well_formed b (rep_loop num bitlen buflen n b) := by
  induction n generalizing b with
  | zero => exact ⟨trivial, fun b2 h => by simp [rep_loop] at h; simp [rep_loop, calls_len, h]⟩
  | succ n ih =>
    obtain ⟨c1, c2⟩ := sscanf_item_contig num bitlen buflen b
    simp only [rep_loop]
    split
    · exact ⟨c1, fun b2 h => by simp at h⟩
    · rename_i hneg
      apply well_formed_and_then
      · refine ⟨c1, fun b2 h => ?_⟩
        simp only [Option.some.injEq] at h
        rcases c2 with e | e
        · rw [e] at hneg; exact absurd (by decide) hneg
        · rw [← h, e]
      · exact fun b2 => ih b2

theorem items_run_well_formed (buflen : Int) (its : List (List Char)) (b : Int) :
    well_formed b (items_run buflen its b) := by
  induction its generalizing b with
  | nil => exact ⟨trivial, fun b2 h => by simp [items_run] at h; simp [items_run, calls_len, h]⟩
  | cons it rest ih =>
    simp only [items_run]
    exact well_formed_and_then b _ _ (rep_loop_well_formed _ _ _ _ b) (fun b2 => ih b2)

/-- Shape of the outcome of `binstr_parse`: on failure `-1`; on success the
cursor `n`, which is the number of bits written by the calls of the items, and
after these the final call at the cursor. All calls are contiguous from 0. -/
theorem binstr_calls_shape (text : List Char) (buflen : Int) :
    ((binstr_calls text buflen).1 = -1 ∧ contiguous 0 (binstr_calls text buflen).2) ∨
    ∃ (n : Nat) (cs : List BitSetCall), binstr_calls text buflen
        = ((n : Int), cs ++ [⟨(n : Int), 0, 8 - (n : Int) % 8⟩]) ∧
      contiguous 0 cs ∧ calls_len cs = n := by
  obtain ⟨w1, w2⟩ := items_run_well_formed buflen (doc_items text) 0
  rw [binstr_calls_eq]
  cases h : (items_run buflen (doc_items text) 0).1 with
  | none => left; exact ⟨rfl, w1⟩
  | some b =>
    right
    have e := w2 b h
    refine ⟨calls_len (items_run buflen (doc_items text) 0).2,
      (items_run buflen (doc_items text) 0).2, ?_, w1, rfl⟩
    have : b = ((calls_len (items_run buflen (doc_items text) 0).2 : Nat) : Int) := by
      rw [e]; simp
    simp only [this]

/-! ## Bytes of the buffer -/

theorem bit_set_byte (buf : Nat → Nat) (b val len i : Nat) :
    bit_set buf b val len i = buf i ∨ bit_set buf b val len i < 256 := by
  unfold bit_set
  by_cases h0 : len = 0
  · left; simp [h0]
  simp only [h0, if_false]
  split
  · by_cases h2 : i = b / 8 + 1
    · right; rw [h2, Function.update_same]; exact Nat.mod_lt _ (by norm_num)
    · rw [Function.update_noteq h2]
      by_cases h1 : i = b / 8
      · right; rw [h1, Function.update_same]
        split <;> exact Nat.mod_lt _ (by norm_num)
      · left; rw [Function.update_noteq h1]
  · by_cases h1 : i = b / 8
    · right; rw [h1, Function.update_same]
      split <;> exact Nat.mod_lt _ (by norm_num)
    · left; rw [Function.update_noteq h1]

theorem bit_set_byte_other (buf : Nat → Nat) (b val len i : Nat) (h1 : i ≠ b / 8)
    (h2 : i ≠ b / 8 + 1) : bit_set buf b val len i = buf i := by
  unfold bit_set
  by_cases h0 : len = 0
  · simp [h0]
  simp only [h0, if_false]
  split
  · rw [Function.update_noteq h2, Function.update_noteq h1]
  · rw [Function.update_noteq h1]

theorem bit_set_touched (buf : Nat → Nat) (b val len p : Nat) (hlen : len ≤ 8)
    (hp : b ≤ p ∧ p < b + len) : bit_set buf b val len (p / 8) < 256 := by
  unfold bit_set
  have h0 : len ≠ 0 := by omega
  simp only [h0, if_false]
  by_cases hl : (8 : Int) - (len : Int) - ((b % 8 : Nat) : Int) < 0
  · simp only [hl, if_true]
    by_cases h2 : p / 8 = b / 8 + 1
    · rw [h2, Function.update_same]; exact Nat.mod_lt _ (by norm_num)
    · have h1 : p / 8 = b / 8 := by omega
      rw [Function.update_noteq h2, h1, Function.update_same]
      split <;> exact Nat.mod_lt _ (by norm_num)
  · simp only [hl, if_false]
    have h1 : p / 8 = b / 8 := by omega
    rw [h1, Function.update_same]
    split <;> exact Nat.mod_lt _ (by norm_num)

theorem run_calls_byte_keep (cs : List BitSetCall) (buf : Nat → Nat) (i : Nat)
    (h : buf i < 256) : run_calls cs buf i < 256 := by
  induction cs generalizing buf with
  | nil => exact h
  | cons c cs ih =>
    apply ih
    rcases bit_set_byte buf c.bitindex.toNat c.val c.len.toNat i with e | e
    · show bit_set buf c.bitindex.toNat c.val c.len.toNat i < 256
      rw [e]; exact h
    · exact e

/-- A byte with a bit inside the span written by contiguous calls holds a
value below 256 afterwards. -/
theorem run_calls_touched (cs : List BitSetCall) (s : Int) (hs : 0 ≤ s) (buf : Nat → Nat)
    (hc : contiguous s cs) (p : Nat) (hp : s.toNat ≤ p ∧ p < s.toNat + calls_len cs) :
    run_calls cs buf (p / 8) < 256 := by
  induction cs generalizing s buf with
  | nil => simp only [calls_len] at hp; omega
  | cons c cs ih =>
    obtain ⟨h1, h2, h3, h4⟩ := hc
    simp only [calls_len] at hp
    by_cases hin : p < s.toNat + c.len.toNat
    · show run_calls cs (apply_call buf c) (p / 8) < 256
      apply run_calls_byte_keep
      show bit_set buf c.bitindex.toNat c.val c.len.toNat (p / 8) < 256
      rw [h1]
      exact bit_set_touched _ _ _ _ _ (by omega) ⟨hp.1, hin⟩
    · exact ih (s + c.len) (by omega) _ h4 (by omega)

theorem byte_eq_of_bits (x y : Nat) (hx : x < 256) (hy : y < 256)
    (h : ∀ k, k < 8 → x.testBit k = y.testBit k) : x = y := by
  apply Nat.eq_of_testBit_eq
  intro k
  by_cases hk : k < 8
  · exact h k hk
  · have h8 : (256 : Nat) ≤ 2 ^ k := by
      have : (2 : Nat) ^ 8 ≤ 2 ^ k := Nat.pow_le_pow_right (by norm_num) (by omega)
      simpa using this
    rw [Nat.testBit_lt_two_pow (by omega), Nat.testBit_lt_two_pow (by omega)]

/-- Bytes wholly inside the span written by contiguous calls from bit 0 do
not depend on the buffer the calls are replayed on. -/
theorem run_calls_bytes_eq (cs : List BitSetCall) (hc : contiguous 0 cs) (buf1 buf2 : Nat → Nat)
    (i : Nat) (hi : 8 * i + 8 ≤ calls_len cs) : run_calls cs buf1 i = run_calls cs buf2 i := by
  have hdiv : ∀ k, k < 8 → (8 * i + (7 - k)) / 8 = i := by intro k hk; omega
  have hmod : ∀ k, k < 8 → 7 - (8 * i + (7 - k)) % 8 = k := by intro k hk; omega
  have t1 := run_calls_touched cs 0 (le_refl 0) buf1 hc (8 * i) (by simp; omega)
  have t2 := run_calls_touched cs 0 (le_refl 0) buf2 hc (8 * i) (by simp; omega)
  have e8 : 8 * i / 8 = i := by omega
  rw [e8] at t1 t2
  apply byte_eq_of_bits _ _ t1 t2
  intro k hk
  have g1 := get_bit_run_calls cs 0 (le_refl 0) buf1 hc (8 * i + (7 - k))
  have g2 := get_bit_run_calls cs 0 (le_refl 0) buf2 hc (8 * i + (7 - k))
  have hin : (0 : Int).toNat ≤ 8 * i + (7 - k) ∧ 8 * i + (7 - k) < (0 : Int).toNat + calls_len cs := by
    simp; omega
  simp only [hin, and_self, if_true, get_bit, hdiv k hk, hmod k hk] at g1 g2
  rw [g1, g2]

/-! ## Claims C1 and C2: hexadecimal, octal and binary items -/

theorem digits_plain (d : List Char) (hdig : d.all isdigit = true) :
    (∀ c ∈ d, isdigit c = true) ∧ (∀ c ∈ d, is_blank c = false) := by
  have h : ∀ c ∈ d, isdigit c = true := List.all_eq_true.mp hdig
  exact ⟨h, fun c hc => isdigit_not_blank (h c hc)⟩

theorem decimal_text_parse (d : List Char) (hdig : d.all isdigit = true)
    (hnb : is_based d = false) (L : Nat) (hL : L ≤ 64) (buflen : Int) :
    ∃ cs, binstr_calls (with_length (some L) d) buflen
        = ((L : Int), cs ++ [⟨(L : Int), 0, 8 - (L : Int) % 8⟩]) ∧
      contiguous 0 cs ∧ calls_len cs = L ∧ calls_value cs = strtoull d % 2 ^ L := by
  obtain ⟨_, hp⟩ := digits_plain d hdig
  obtain ⟨b1, b2, b3, b4⟩ := braced_item L d hp
  obtain ⟨a1, a2, a3, a4⟩ := sscanf_item_decimal d hnb L hL buflen 0
  refine ⟨(sscanf_item d L buflen 0).2, ?_, a2, a3, a4⟩
  simp only [with_length]
  rw [single_item_calls _ buflen b1 b2, b4, b3, a1]
  have h0 : ¬ ((L : Int) < 0) := by omega
  simp only [h0, if_false]

theorem decimal_text_fail (d : List Char) (text : List Char) (hnb : is_based d = false)
    (buf : Nat → Nat) (buflen : Int) (hdoc : doc_items text = [text]) (hrep : item_rep text = 1)
    (hnum : item_numeral text = d) (hlen : item_bitlen text < 0 ∨ 64 < item_bitlen text) :
    (binstr_parse text buf buflen).1 = -1 := by
  simp only [binstr_parse]
  rw [single_item_calls _ buflen hdoc hrep, hnum,
    sscanf_item_decimal_fail d hnb _ hlen buflen 0]
  simp

/-- C3. For a decimal numeral `d` (a string of decimal digits that the base
test of `sscanf_item` takes as decimal) with value below `2^64` and an explicit
length `L ≤ 64`, `binstr_parse` of `{L}d` returns `L`, and the first `L` bits
of the buffer are the `L`-bit big-endian representation of the value modulo
`2^L`, its `L` low-order bits. -/
theorem c3_decimal_item (d : List Char) (hne : d ≠ []) (hdig : d.all isdigit = true)
    (hnb : is_based d = false) (hval : decimal_value d < 2 ^ 64) (L : Nat) (hL : L ≤ 64)
    (buf : Nat → Nat) (buflen : Int) :
    (binstr_parse (with_length (some L) d) buf buflen).1 = (L : Int) ∧
    buffer_bits (binstr_parse (with_length (some L) d) buf buflen).2 L
      = be_bits (decimal_value d) L := by
  obtain ⟨cs, c1, c2, c3, c4⟩ := decimal_text_parse d hdig hnb L hL buflen
  have hs : strtoull d = decimal_value d := by
    rw [strtoull_digits d hne (digits_plain d hdig).1]
    have : ¬ (decimal_value d ≥ 2 ^ 64) := by omega
    simp only [this, if_false]
  refine ⟨by simp only [binstr_parse, c1], ?_⟩
  simp only [buffer_bits, be_bits]
  apply List.map_congr_left
  intro j hj
  have hjL : j < L := List.mem_range.mp hj
  rw [bits_of_parse _ buf buflen _ cs (by omega) c1 c2 (by exact_mod_cast c3) j
    (by exact_mod_cast hjL), c4, hs, Nat.testBit_mod_two_pow, Int.toNat_ofNat]
  have : L - 1 - j < L := by omega
  simp [this]

theorem c3_decimal_item_witness :
    ['3', '0', '5', '4', '1', '9', '8', '9', '6'] ≠ [] ∧
    ['3', '0', '5', '4', '1', '9', '8', '9', '6'].all isdigit = true ∧
    is_based ['3', '0', '5', '4', '1', '9', '8', '9', '6'] = false ∧
    decimal_value ['3', '0', '5', '4', '1', '9', '8', '9', '6'] < 2 ^ 64 ∧ 13 ≤ 64 ∧
    (binstr_parse (with_length (some 13) ['3', '0', '5', '4', '1', '9', '8', '9', '6'])
      (fun _ => 0) 2).1 = ((13 : Nat) : Int) ∧
    buffer_bits (binstr_parse (with_length (some 13) ['3', '0', '5', '4', '1', '9', '8', '9', '6'])
      (fun _ => 0) 2).2 13 = be_bits (decimal_value ['3', '0', '5', '4', '1', '9', '8', '9', '6']) 13 :=
  ⟨by decide, by decide, by decide, by decide, by decide,
    c3_decimal_item ['3', '0', '5', '4', '1', '9', '8', '9', '6'] (by decide) (by decide)
      (by decide) (by decide) 13 (by decide) (fun _ => 0) 2⟩

/-! ## Repeat counts -/

theorem plain_item_spec (X : List Char) (h : plain_item X = true) :
    X ≠ [] ∧ ' ' ∉ X ∧ '\n' ∉ X ∧ X.head? ≠ some '*' ∧ X.head? ≠ some '#' ∧
    (∀ c, X.head? = some c → is_blank c = false) ∧
    (∀ c, X.getLast? = some c → is_blank c = false) := by
  simp only [plain_item, Bool.and_eq_true, Bool.not_eq_true', List.all_eq_true, bne_iff_ne,
    ne_eq] at h
  obtain ⟨⟨⟨h1, h2⟩, h3⟩, h4⟩ := h
  refine ⟨?_, ?_, ?_, ?_, ?_, ?_, ?_⟩
  · intro e; rw [e] at h1; simp at h1
  · intro hm; exact (h2 _ hm).1 rfl
  · intro hm; exact (h2 _ hm).2 rfl
  · intro e; rw [e] at h3; simp at h3
  · intro e; rw [e] at h3; simp at h3
  · intro c e; rw [e] at h3; simp at h3; exact h3.1.1
  · intro c e; rw [e] at h4; simp at h4; exact h4

theorem rep_loop_succ (num : List Char) (bitlen buflen : Int) (n : Nat) (b : Int) :
    rep_loop num bitlen buflen (n + 1) b
      = and_then (rep_loop num bitlen buflen 1 b) (rep_loop num bitlen buflen n) := by
  rw [rep_loop_one]
  simp only [rep_loop]
  split
  · simp [and_then]
  · rfl

theorem items_run_replicate (buflen : Int) (X : List Char) (hrep : item_rep X = 1) (n : Nat)
    (b : Int) :
    items_run buflen (List.replicate n X) b
      = rep_loop (item_numeral X) (item_bitlen X) buflen n b := by
  induction n generalizing b with
  | zero => rfl
  | succ n ih =>
    rw [List.replicate_succ, rep_loop_succ]
    simp only [items_run, item_step, hrep]
    rw [show (1 : Int).toNat = 1 from rfl]
    congr 1
    funext b2
    exact ih b2

theorem sscanf_d_of_int_text (c : Char) (hc : isdigit c = false) (N : Int) (rest : List Char) :
    sscanf_d c c (c :: (int_text N ++ c :: rest))
      = ⟨1, some N, some ((int_text N).length + 2)⟩ := by
  by_cases hN : N < 0
  · obtain ⟨d, ds, e1, e2, e3, e4⟩ := nat_text_spec (-N).toNat
    have := sscanf_d_neg c c d ds rest e2 e3 hc
    simp only [int_text, hN, if_true, e1, List.cons_append]
    rw [List.cons_append] at this
    rw [this, e4]
    have : -(((-N).toNat : Nat) : Int) = N := by omega
    rw [this]
    simp
  · obtain ⟨d, ds, e1, e2, e3, e4⟩ := nat_text_spec N.toNat
    have := sscanf_d_pos c c d ds rest e2 e3 hc
    simp only [int_text, hN, if_false, e1]
    rw [this, e4]
    have : ((N.toNat : Nat) : Int) = N := by omega
    rw [this]

theorem int_text_plain (N : Int) : ∀ c ∈ int_text N, c ≠ ' ' ∧ c ≠ '\n' := by
  have key : ∀ n : Nat, ∀ c ∈ nat_text n, c ≠ ' ' ∧ c ≠ '\n' := by
    intro n c hc
    obtain ⟨d, ds, e1, e2, e3, _⟩ := nat_text_spec n
    rw [e1] at hc
    have hd : isdigit c = true := by
      rcases List.mem_cons.mp hc with h | h
      · rw [h]; exact e2
      · exact e3 c h
    exact ⟨isdigit_ne hd (by decide), isdigit_ne hd (by decide)⟩
  intro c hc
  by_cases hN : N < 0
  · simp only [int_text, hN, if_true] at hc
    rcases List.mem_cons.mp hc with h | h
    · rw [h]; decide
    · exact key _ c h
  · simp only [int_text, hN, if_false] at hc
    exact key _ c hc

/-- The item `*N*X`: repeat count `N`, then length and numeral as for `X`. -/
theorem starred_item (N : Int) (X : List Char) (hX : plain_item X = true) :
    doc_items ('*' :: (int_text N ++ '*' :: X)) = ['*' :: (int_text N ++ '*' :: X)] ∧
    item_rep ('*' :: (int_text N ++ '*' :: X)) = N ∧
    item_bitlen ('*' :: (int_text N ++ '*' :: X)) = item_bitlen X ∧
    item_numeral ('*' :: (int_text N ++ '*' :: X)) = item_numeral X ∧
    item_rep X = 1 := by
  obtain ⟨x1, x2, x3, x4, x5, x6, x7⟩ := plain_item_spec X hX
  have hsc := sscanf_d_of_int_text '*' (by decide) N X
  have hmis := sscanf_d_mismatch '*' '*' X x4
  have hidxX : item_index X = 0 := by simp [item_index, hmis.2]
  have hdrop : List.drop ((int_text N).length + 2) ('*' :: (int_text N ++ '*' :: X)) = X := by
    have e : '*' :: (int_text N ++ '*' :: X) = ('*' :: (int_text N ++ ['*'])) ++ X := by simp
    have l : (int_text N).length + 2 = ('*' :: (int_text N ++ ['*'])).length := by simp
    rw [e, l, List.drop_left]
  have hidx : item_index ('*' :: (int_text N ++ '*' :: X)) = (int_text N).length + 2 := by
    simp [item_index, hsc]
  refine ⟨?_, ?_, ?_, ?_, ?_⟩
  · apply doc_items_join ['*' :: (int_text N ++ '*' :: X)]
    · intro it hit; rw [List.mem_singleton.mp hit]; simp
    · intro it hit; rw [List.mem_singleton.mp hit]
      intro hm
      rcases List.mem_cons.mp hm with h | h
      · revert h; decide
      · rcases List.mem_append.mp h with h | h
        · exact (int_text_plain N _ h).1 rfl
        · rcases List.mem_cons.mp h with h | h
          · revert h; decide
          · exact x2 h
    · intro it hit; rw [List.mem_singleton.mp hit]
      intro hm
      rcases List.mem_cons.mp hm with h | h
      · revert h; decide
      · rcases List.mem_append.mp h with h | h
        · exact (int_text_plain N _ h).2 rfl
        · rcases List.mem_cons.mp h with h | h
          · revert h; decide
          · exact x3 h
    · intro it hit; rw [List.mem_singleton.mp hit]; simp
    · intro it c h1 h2
      simp only [List.head?_cons, Option.some.injEq] at h1
      rw [← h1] at h2
      simp only [List.head?_cons, Option.some.injEq] at h2
      rw [← h2]; decide
    · intro it c h1 h2
      simp only [List.getLast?_singleton, Option.some.injEq] at h1
      rw [← h1] at h2
      have e : '*' :: (int_text N ++ '*' :: X) = ('*' :: (int_text N ++ ['*'])) ++ X := by simp
      rw [e, List.getLast?_append_of_ne_nil _ x1] at h2
      exact x7 c h2
  · simp [item_rep, hsc]
  · simp only [item_bitlen, hidx, hdrop, hidxX, List.drop_zero]
  · simp only [item_numeral, hidx, hidxX, List.drop_zero, Nat.zero_add]
    rw [← List.drop_drop, hdrop]
  · simp [item_rep, hmis.1]

/-! ## Claim C6: comments -/

theorem dropWhile_append_neg (p : Char → Bool) (a : List Char) (b : Char) (rest : List Char)
    (hb : p b = false) : (a ++ b :: rest).dropWhile p = a.dropWhile p ++ b :: rest := by
  induction a with
  | nil => simp [List.dropWhile, hb]
  | cons x xs ih =>
    rw [List.cons_append]
    by_cases hx : p x = true
    · simp only [List.dropWhile_cons, hx, if_true, ih]
    · simp [List.dropWhile_cons, hx]

theorem dropWhile_append_some (p : Char → Bool) (a r : List Char)
    (h : ∃ c ∈ a, p c = false) : (a ++ r).dropWhile p = a.dropWhile p ++ r := by
  induction a with
  | nil => obtain ⟨c, hc, _⟩ := h; cases hc
  | cons x xs ih =>
    rw [List.cons_append]
    by_cases hx : p x = true
    · simp only [List.dropWhile_cons, hx, if_true]
      apply ih
      obtain ⟨c, hc, hpc⟩ := h
      rcases List.mem_cons.mp hc with e | e
      · rw [e, hx] at hpc; exact absurd hpc (by simp)
      · exact ⟨c, e, hpc⟩
    · simp [List.dropWhile_cons, hx]

theorem takeWhile_append_neg (p : List Char → Bool) (a : List (List Char)) (b : List Char)
    (rest : List (List Char)) (hb : p b = false) :
    (a ++ b :: rest).takeWhile p = a.takeWhile p := by
  induction a with
  | nil => simp [List.takeWhile, hb]
  | cons x xs ih =>
    rw [List.cons_append]
    by_cases hx : p x = true
    · simp only [List.takeWhile_cons, hx, if_true, ih]
    · simp [List.takeWhile_cons, hx]

theorem filter_split_spaces (sp rest : List Char) (h : ∀ c ∈ sp, c = ' ') :
    (split ' ' (sp ++ rest)).filter (fun it => it ≠ [])
      = (split ' ' rest).filter (fun it => it ≠ []) := by
  induction sp with
  | nil => rfl
  | cons x xs ih =>
    have hx : x = ' ' := h x (List.mem_cons_self _ _)
    rw [List.cons_append, hx]
    simp only [split, if_true]
    rw [List.filter_cons_of_neg (by simp)]
    exact ih (fun c hc => h c (List.mem_cons_of_mem _ hc))

theorem split_head (d x : Char) (rest : List Char) (h : x ≠ d) :
    ∃ l ls, split d (x :: rest) = (x :: l) :: ls := by
  simp only [split, h, if_false]
  cases hs : split d rest with
  | nil => exact ⟨[], [], rfl⟩
  | cons l ls => exact ⟨l, ls, rfl⟩

/-- The items of a line that starts with a comment. -/
theorem comment_items (c : List Char) (F : List (List Char)) :
    ((F ++ (split ' ' ('#' :: c)).filter (fun it => it ≠ [])).takeWhile
      (fun it => it.head? ≠ some '#')) = F.takeWhile (fun it => it.head? ≠ some '#') := by
  obtain ⟨l, ls, e⟩ := split_head ' ' '#' c (by decide)
  rw [e, List.filter_cons_of_pos (by simp)]
  exact takeWhile_append_neg _ F _ _ (by simp)

/-- Shape of a line text whose white space at the end is made of spaces. -/
theorem spaces_at_end_spec (p : List Char) (h : spaces_at_end p = true) :
    ∃ q sp, p = q ++ sp ∧ (∀ c ∈ sp, c = ' ') ∧ rtrim p = q ∧
      (q = [] ∨ ∃ c ∈ q, is_blank c = false) := by
  refine ⟨(p.reverse.dropWhile (fun c => c == ' ')).reverse,
    (p.reverse.takeWhile (fun c => c == ' ')).reverse, ?_, ?_, ?_, ?_⟩
  · rw [← List.reverse_append, List.takeWhile_append_dropWhile, List.reverse_reverse]
  · intro c hc
    have := List.mem_takeWhile_imp (List.mem_reverse.mp hc)
    simpa using this
  · have hsplit := List.takeWhile_append_dropWhile (fun c => c == ' ') p.reverse
    rw [rtrim]
    congr 1
    conv_lhs => rw [← hsplit]
    rw [List.dropWhile_append_of_pos]
    · apply dropWhile_eq_self
      intro c hc
      simp only [spaces_at_end, List.all_eq_true] at h
      rw [hc] at h
      simpa using h
    · intro c hc
      have := List.mem_takeWhile_imp hc
      have e : c = ' ' := by simpa using this
      rw [e]; decide
  · cases hq : p.reverse.dropWhile (fun c => c == ' ') with
    | nil => left; rfl
    | cons x xs =>
      right
      refine ⟨x, by simp, ?_⟩
      simp only [spaces_at_end, hq] at h
      simpa using h

theorem rtrim_comment (x c : List Char) : rtrim (x ++ '#' :: c) = x ++ '#' :: rtrim c := by
  simp only [rtrim, List.reverse_append, List.reverse_cons, List.append_assoc,
    List.singleton_append]
  rw [dropWhile_append_neg _ _ _ _ (by decide)]
  simp

/-- Adding a comment at the end of a line does not change its items, when the
white space at the end of the line is made of spaces. -/
theorem line_items_with_comment (p c : List Char) (h : spaces_at_end p = true) :
    line_items (with_comment p c) = line_items p := by
  obtain ⟨q, sp, e1, e2, e3, e4⟩ := spaces_at_end_spec p h
  have hT : ∀ x ∈ sp ++ [' '], x = ' ' := by
    intro x hx
    rcases List.mem_append.mp hx with h | h
    · exact e2 x h
    · exact List.mem_singleton.mp h
  have hr : rtrim (with_comment p c) = q ++ ((sp ++ [' ']) ++ '#' :: rtrim c) := by
    have : with_comment p c = (q ++ (sp ++ [' '])) ++ '#' :: c := by
      simp [with_comment, e1]
    rw [this, rtrim_comment]
    simp
  have hblank : ∀ x ∈ sp ++ [' '], is_blank x = true := by
    intro x hx; rw [hT x hx]; decide
  rw [line_items_eq_split, line_items_eq_split, trim, trim, hr, e3]
  rcases e4 with rfl | hq
  · simp only [List.nil_append]
    rw [ltrim, List.dropWhile_append_of_pos hblank]
    have : List.dropWhile is_blank ('#' :: rtrim c) = '#' :: rtrim c := by
      simp [List.dropWhile_cons, show is_blank '#' = false by decide]
    rw [this]
    have := comment_items (rtrim c) []
    simp only [List.nil_append] at this
    rw [this]
    simp [ltrim, split]
  · rw [ltrim, dropWhile_append_some _ _ _ hq]
    cases hsp : sp ++ [' '] with
    | nil => simp at hsp
    | cons y ys =>
      have hy : y = ' ' := hT y (by rw [hsp]; exact List.mem_cons_self _ _)
      have hys : ∀ x ∈ ys, x = ' ' := fun x hx => hT x (by rw [hsp]; exact List.mem_cons_of_mem _ hx)
      rw [hy, List.cons_append, split_append, List.filter_append, filter_split_spaces _ _ hys]
      exact comment_items (rtrim c) _

/-- The pieces of a document around one of its lines. -/
theorem split_around_line (A B : List Char) (hA : A.getLast?.all (fun c => c == '\n') = true)
    (hB : B.head?.all (fun c => c == '\n') = true) :
    ∃ PA PB, ∀ l : List Char, '\n' ∉ l → split '\n' (A ++ l ++ B) = PA ++ [l] ++ PB := by
  have hA2 : A = [] ∨ ∃ A2, A = A2 ++ ['\n'] := by
    rcases List.eq_nil_or_concat A with h | ⟨A2, x, h⟩
    · left; exact h
    · right
      refine ⟨A2, ?_⟩
      rw [h, List.concat_eq_append] at hA ⊢
      rw [List.getLast?_concat] at hA
      have : x = '\n' := by simpa using hA
      rw [this]
  have hB2 : B = [] ∨ ∃ B2, B = '\n' :: B2 := by
    cases B with
    | nil => left; rfl
    | cons x B2 =>
      right
      have : x = '\n' := by simpa using hB
      exact ⟨B2, by rw [this]⟩
  rcases hA2 with rfl | ⟨A2, rfl⟩ <;> rcases hB2 with rfl | ⟨B2, rfl⟩
  · exact ⟨[], [], fun l hl => by simp [split_single _ _ hl]⟩
  · refine ⟨[], split '\n' B2, fun l hl => ?_⟩
    simp only [List.nil_append]
    rw [split_append, split_single _ _ hl]
  · refine ⟨split '\n' A2, [], fun l hl => ?_⟩
    have : A2 ++ ['\n'] ++ l ++ [] = A2 ++ '\n' :: l := by simp
    rw [this, split_append, split_single _ _ hl]
    simp
  · refine ⟨split '\n' A2, split '\n' B2, fun l hl => ?_⟩
    have : A2 ++ ['\n'] ++ l ++ '\n' :: B2 = A2 ++ '\n' :: (l ++ '\n' :: B2) := by simp
    rw [this, split_append, split_append, split_single _ _ hl]
    simp

/-- C6, as amended. In a document `A ++ p ++ B` where `p` is a whole line
(`A` is empty or ends with a newline, `B` is empty or starts with one, `p` has
no newline) whose white space at the end, if any, is made of spaces only,
replacing `p` by `p` followed by a space, `#` and a comment text `c` without
newline changes neither the return value nor the buffer of `binstr_parse`. -/
theorem c6_comment_stripping (A p c B : List Char)
    (hA : A.getLast?.all (fun x => x == '\n') = true)
    (hB : B.head?.all (fun x => x == '\n') = true)
    (hp : p.all (fun x => x != '\n') = true) (hc : c.all (fun x => x != '\n') = true)
    (hend : spaces_at_end p = true) (buf : Nat → Nat) (buflen : Int) :
    binstr_parse (A ++ with_comment p c ++ B) buf buflen = binstr_parse (A ++ p ++ B) buf buflen := by
  have hp2 : '\n' ∉ p := by
    intro hm
    have := List.all_eq_true.mp hp _ hm
    simp at this
  have hc2 : '\n' ∉ with_comment p c := by
    intro hm
    simp only [with_comment, List.mem_append, List.mem_cons] at hm
    rcases hm with h | h | h | h
    · exact hp2 h
    · revert h; decide
    · revert h; decide
    · have := List.all_eq_true.mp hc _ h
      simp at this
  obtain ⟨PA, PB, hsplit⟩ := split_around_line A B hA hB
  have hdoc : doc_items (A ++ with_comment p c ++ B) = doc_items (A ++ p ++ B) := by
    rw [doc_items_eq_split, doc_items_eq_split, hsplit _ hp2, hsplit _ hc2]
    simp only [lines_items_append, lines_items, line_items_with_comment p c hend]
  have hcalls : binstr_calls (A ++ with_comment p c ++ B) buflen
      = binstr_calls (A ++ p ++ B) buflen := by
    rw [binstr_calls_eq, binstr_calls_eq, hdoc]
  simp only [binstr_parse, hcalls]

/-- C6 as stated fails when a line ends with a tab: `0x1` followed by a tab
parses to 4 bits, and with ` #` appended the parse fails. -/
theorem c6_counterexample :
    (binstr_parse ([] ++ ['0', 'x', '1', '\t'] ++ []) (fun _ => 0) 1).1 = 4 ∧
    (binstr_parse ([] ++ with_comment ['0', 'x', '1', '\t'] [] ++ []) (fun _ => 0) 1).1 = -1 := by
  decide

theorem c6_comment_stripping_witness :
    ['\n'].getLast?.all (fun x => x == '\n') = true ∧
    ['\n', '0', 'x', '4'].head?.all (fun x => x == '\n') = true ∧
    ['{', '1', '}', '0', ' '].all (fun x => x != '\n') = true ∧
    [' ', '0'].all (fun x => x != '\n') = true ∧
    spaces_at_end ['{', '1', '}', '0', ' '] = true ∧
    binstr_parse (['\n'] ++ with_comment ['{', '1', '}', '0', ' '] [' ', '0']
        ++ ['\n', '0', 'x', '4']) (fun _ => 0) 1
      = binstr_parse (['\n'] ++ ['{', '1', '}', '0', ' '] ++ ['\n', '0', 'x', '4'])
        (fun _ => 0) 1 :=
  ⟨by decide, by decide, by decide, by decide, by decide,
    c6_comment_stripping ['\n'] ['{', '1', '}', '0', ' '] [' ', '0'] ['\n', '0', 'x', '4']
      (by decide) (by decide) (by decide) (by decide) (by decide) (fun _ => 0) 1⟩

/-! ## Claim C7: a document and the line of its items -/

theorem split_chars (d : Char) (s : List Char) : ∀ p ∈ split d s, ∀ c ∈ p, c ∈ s := by
  induction s with
  | nil => intro p hp c hc; simp [split] at hp; rw [hp] at hc; cases hc
  | cons x xs ih =>
    intro p hp c hc
    by_cases h : x = d
    · simp only [split, h, if_true, List.mem_cons] at hp
      rcases hp with rfl | hp
      · cases hc
      · exact List.mem_cons_of_mem _ (ih p hp c hc)
    · simp only [split, h, if_false] at hp
      cases hs : split d xs with
      | nil => exact absurd hs (split_ne_nil d xs)
      | cons l ls =>
        rw [hs] at hp ih
        rcases List.mem_cons.mp hp with rfl | hp
        · rcases List.mem_cons.mp hc with e | e
          · rw [e]; exact List.mem_cons_self _ _
          · exact List.mem_cons_of_mem _ (ih l (List.mem_cons_self _ _) c e)
        · exact List.mem_cons_of_mem _ (ih p (List.mem_cons_of_mem _ hp) c hc)

theorem trim_chars (s : List Char) : ∀ c ∈ trim s, c ∈ s := by
  intro c hc
  have h1 : c ∈ rtrim s := (List.dropWhile_sublist _).subset hc
  have h2 : c ∈ s.reverse := (List.dropWhile_sublist _).subset (List.mem_reverse.mp h1)
  exact List.mem_reverse.mp h2

theorem dropWhile_head_not (p : Char → Bool) (l : List Char) :
    ∀ c, (l.dropWhile p).head? = some c → p c = false := by
  induction l with
  | nil => intro c h; simp at h
  | cons x xs ih =>
    intro c h
    by_cases hx : p x = true
    · simp only [List.dropWhile_cons, hx, if_true] at h
      exact ih c h
    · simp only [List.dropWhile_cons, hx] at h
      simp only [Bool.false_eq_true, if_false, List.head?_cons, Option.some.injEq] at h
      rw [← h]; simpa using hx

/-- What the items of a line look like. -/
theorem line_items_spec (l : List Char) :
    (∀ it ∈ line_items l, it ≠ [] ∧ ' ' ∉ it ∧ it.head? ≠ some '#' ∧ ∀ c ∈ it, c ∈ l) ∧
    (∀ it c, (line_items l).head? = some it → it.head? = some c → is_blank c = false) := by
  constructor
  · intro it hit
    rw [line_items_eq_split] at hit
    have h1 := List.mem_takeWhile_imp hit
    have h2 := (List.takeWhile_sublist _).subset hit
    have h3 := List.mem_filter.mp h2
    refine ⟨by simpa using h3.2, split_no_delim ' ' _ it h3.1, by simpa using h1, ?_⟩
    intro c hc
    exact trim_chars l c (split_chars ' ' _ it h3.1 c hc)
  · intro it c hit hc
    rw [line_items_eq_split] at hit
    cases ht : trim l with
    | nil =>
      rw [ht] at hit
      simp [split] at hit
    | cons x rest =>
      have hx : is_blank x = false := by
        apply dropWhile_head_not is_blank (rtrim l) x
        show (trim l).head? = some x
        rw [ht]; rfl
      have hxs : x ≠ ' ' := by
        intro e; rw [e] at hx; revert hx; decide
      obtain ⟨l2, ls, e⟩ := split_head ' ' x rest hxs
      rw [ht, e, List.filter_cons_of_pos (by simp)] at hit
      by_cases hcm : (x :: l2).head? = some '#'
      · rw [List.takeWhile_cons_of_neg (by simpa using hcm)] at hit
        simp at hit
      · rw [List.takeWhile_cons_of_pos (by simpa using hcm)] at hit
        simp only [List.head?_cons, Option.some.injEq] at hit
        rw [← hit] at hc
        simp only [List.head?_cons, Option.some.injEq] at hc
        rw [← hc]; exact hx

theorem lines_items_spec (ls : List (List Char)) (hnl : ∀ l ∈ ls, '\n' ∉ l) :
    (∀ it ∈ lines_items ls, it ≠ [] ∧ ' ' ∉ it ∧ it.head? ≠ some '#' ∧ '\n' ∉ it) ∧
    (∀ it c, (lines_items ls).head? = some it → it.head? = some c → is_blank c = false) := by
  induction ls with
  | nil => simp [lines_items]
  | cons l ls ih =>
    obtain ⟨i1, i2⟩ := ih (fun x hx => hnl x (List.mem_cons_of_mem _ hx))
    obtain ⟨s1, s2⟩ := line_items_spec l
    constructor
    · intro it hit
      simp only [lines_items, List.mem_append] at hit
      rcases hit with h | h
      · obtain ⟨a, b, c, d⟩ := s1 it h
        exact ⟨a, b, c, fun hm => hnl l (List.mem_cons_self _ _) (d _ hm)⟩
      · exact i1 it h
    · intro it c hit hc
      simp only [lines_items] at hit
      cases hl : line_items l with
      | nil =>
        rw [hl, List.nil_append] at hit
        exact i2 it c hit hc
      | cons y ys =>
        rw [hl, List.cons_append, List.head?_cons] at hit
        apply s2 it c _ hc
        rw [hl, List.head?_cons]
        exact hit

theorem doc_items_spec (text : List Char) :
    (∀ it ∈ doc_items text, it ≠ [] ∧ ' ' ∉ it ∧ it.head? ≠ some '#' ∧ '\n' ∉ it) ∧
    (∀ it c, (doc_items text).head? = some it → it.head? = some c → is_blank c = false) := by
  rw [doc_items_eq_split]
  exact lines_items_spec _ (split_no_delim '\n' text)

/-- C7, as amended. For every document whose last item (if any) does not end
with a tab or carriage return, `binstr_parse` gives the same return value and
the same buffer on the document and on the single line made of the items of
the document (`doc_items`: line by line, the non-empty pieces between spaces of
each trimmed line, up to the first piece that starts with `#`) joined with
single spaces. -/
theorem c7_multiline_equivalence (text : List Char)
    (hlast : (doc_items text).getLast?.all (fun it => it.getLast?.all (fun c => !is_blank c))
      = true)
    (buf : Nat → Nat) (buflen : Int) :
    binstr_parse (join_items (doc_items text)) buf buflen = binstr_parse text buf buflen := by
  obtain ⟨h1, h2⟩ := doc_items_spec text
  have hdoc : doc_items (join_items (doc_items text)) = doc_items text := by
    apply doc_items_join
    · exact fun it hit => (h1 it hit).1
    · exact fun it hit => (h1 it hit).2.1
    · exact fun it hit => (h1 it hit).2.2.2
    · exact fun it hit => (h1 it hit).2.2.1
    · exact h2
    · intro it c e1 e2
      rw [e1] at hlast
      simp only [Option.all_some] at hlast
      rw [e2] at hlast
      simpa using hlast
  have hcalls : binstr_calls (join_items (doc_items text)) buflen = binstr_calls text buflen := by
    rw [binstr_calls_eq, binstr_calls_eq, hdoc]
  simp only [binstr_parse, hcalls]

/-- C7 as stated fails when the last item ends with a tab: the document
`0x1<tab> #` fails on the item `0x1<tab>`, while the line of its items,
`0x1<tab>`, is trimmed to `0x1` and parses to 4 bits. -/
theorem c7_counterexample :
    (binstr_parse ['0', 'x', '1', '\t', ' ', '#'] (fun _ => 0) 1).1 = -1 ∧
    (binstr_parse (join_items (doc_items ['0', 'x', '1', '\t', ' ', '#'])) (fun _ => 0) 1).1
      = 4 := by
  decide

theorem c7_multiline_equivalence_witness :
    (doc_items ['\n', ' ', '0', 'x', '4', ' ', '#', 'a', '\n', '0', 'b', '1', ' ', ' ', '0', '7',
      '\n']).getLast?.all (fun it => it.getLast?.all (fun c => !is_blank c)) = true ∧
    binstr_parse (join_items (doc_items ['\n', ' ', '0', 'x', '4', ' ', '#', 'a', '\n', '0', 'b',
        '1', ' ', ' ', '0', '7', '\n'])) (fun _ => 0) 1
      = binstr_parse ['\n', ' ', '0', 'x', '4', ' ', '#', 'a', '\n', '0', 'b', '1', ' ', ' ', '0',
        '7', '\n'] (fun _ => 0) 1 :=
  ⟨by decide, c7_multiline_equivalence _ (by decide) (fun _ => 0) 1⟩

/-! ## Claims C8 and C9: the capacity of the buffer -/

/-- C8 fails on the code. With a buffer of one byte, the document `0xff`
fills the buffer exactly and parses to 8 bits, and the final `bit_set` then
writes 8 zero bits at bit 8: the byte at index 1, outside the buffer, goes
from 255 to 0.  With capacity 0, the decimal item `{8}1` is written at byte 0
without any capacity test, and the zero bits that `{16}0x1` puts in front of
its digit are written up to bit 11 of a one-byte buffer before the parse
fails. -/
theorem c8_write_past_capacity :
    (binstr_parse ['0', 'x', 'f', 'f'] (fun _ => 255) 1).1 = 8 ∧
    (binstr_parse ['0', 'x', 'f', 'f'] (fun _ => 255) 1).2 1 = 0 ∧
    (binstr_calls ['0', 'x', 'f', 'f'] 1).2.getLast? = some ⟨8, 0, 8⟩ ∧
    (binstr_parse ['{', '8', '}', '1'] (fun _ => 255) 0).2 0 = 1 ∧
    (binstr_parse ['{', '1', '6', '}', '0', 'x', '1'] (fun _ => 255) 1).1 = -1 ∧
    (binstr_parse ['{', '1', '6', '}', '0', 'x', '1'] (fun _ => 255) 1).2 1 = 15 := by
  decide

/-- C9 fails on the code. The document `{8}1` is one valid decimal item of 8
bits; with capacity 0 its bit count exceeds `buflen * 8 = 0`, and
`binstr_parse` returns 8, not `-1`: the decimal branch of `sscanf_item` has
no capacity test. -/
theorem c9_decimal_exceeds_capacity :
    (binstr_parse ['{', '8', '}', '1'] (fun _ => 0) 0).1 = 8 ∧
    (binstr_parse ['0', 'x', 'f', 'f', ' ', '{', '8', '}', '1'] (fun _ => 0) 1).1 = 16 := by
  decide

/-! ## Claim C10: invalid digits -/

/-- C11 fails on the code. The numerals `abc`, `1z` and the empty numeral are
taken as decimal by the base test and are not non-empty digit strings, yet
with the explicit length 8 `binstr_parse` returns 8: the decimal branch of
`sscanf_item` hands the text to `strtoull` and never looks at what it did not
read, while the three other branches reject a character outside their digit
set. -/
theorem c11_decimal_digits_unchecked :
    is_based ['a', 'b', 'c'] = false ∧
    (binstr_parse ['{', '8', '}', 'a', 'b', 'c'] (fun _ => 255) 1).1 = 8 ∧
    (binstr_parse ['{', '8', '}', 'a', 'b', 'c'] (fun _ => 255) 1).2 0 = 0 ∧
    (binstr_parse ['{', '8', '}', '1', 'z'] (fun _ => 255) 1).1 = 8 ∧
    (binstr_parse ['{', '8', '}', '1', 'z'] (fun _ => 255) 1).2 0 = 1 ∧
    (binstr_parse ['{', '8', '}'] (fun _ => 255) 1).1 = 8 := by
  decide

/-! ## Claim C12: the bits after the cursor in the last byte -/

/-- C12. When `binstr_parse` returns `n` with `n mod 8 ≠ 0`, every bit at a
position `p` with `n ≤ p < 8 * ceil(n/8)` is zero afterwards, whatever the
initial buffer; and `n` is the number of bits written by the calls made for
the items, the final call at bit `n` not being counted. -/
theorem c12_final_padding (text : List Char) (buf : Nat → Nat) (buflen : Int) (n p : Nat)
    (hret : (binstr_parse text buf buflen).1 = (n : Int)) (hn : n % 8 ≠ 0) (hp1 : n ≤ p)
    (hp2 : p < 8 * ((n + 7) / 8)) :
    get_bit (binstr_parse text buf buflen).2 p = false ∧
    ∃ cs, (binstr_calls text buflen).2 = cs ++ [⟨(n : Int), 0, 8 - (n : Int) % 8⟩] ∧
      calls_len cs = n ∧ contiguous 0 cs := by
  simp only [binstr_parse] at hret ⊢
  rcases binstr_calls_shape text buflen with ⟨h1, _⟩ | ⟨m, cs, h1, h2, h3⟩
  · rw [h1] at hret; omega
  · rw [h1] at hret ⊢
    have hm : m = n := by
      have : (m : Int) = n := hret
      exact_mod_cast this
    subst hm
    refine ⟨?_, cs, rfl, h3, h2⟩
    simp only [run_calls_append, run_calls, apply_call]
    rw [get_bit_bit_set _ _ _ _ _ (by omega)]
    have hin : (m : Int).toNat ≤ p ∧ p < (m : Int).toNat + (8 - (m : Int) % 8).toNat := by
      omega
    simp only [hin, and_self, if_true, Nat.zero_testBit]

theorem c12_final_padding_witness :
    (binstr_parse ['0', 'b', '1', '0'] (fun _ => 255) 1).1 = ((2 : Nat) : Int) ∧ 2 % 8 ≠ 0 ∧
    2 ≤ 5 ∧ 5 < 8 * ((2 + 7) / 8) ∧
    (get_bit (binstr_parse ['0', 'b', '1', '0'] (fun _ => 255) 1).2 5 = false ∧
    ∃ cs, (binstr_calls ['0', 'b', '1', '0'] 1).2
        = cs ++ [⟨((2 : Nat) : Int), 0, 8 - ((2 : Nat) : Int) % 8⟩] ∧
      calls_len cs = 2 ∧ contiguous 0 cs) :=
  ⟨by decide, by decide, by decide, by decide,
    c12_final_padding ['0', 'b', '1', '0'] (fun _ => 255) 1 2 5 (by decide) (by decide)
      (by decide) (by decide)⟩

/-! ## Claim C15: the bit writer -/

/-- C15. After `bit_set(buf, b, val, len)` with `len ≤ 8`, the bit at every
position `p` with `b ≤ p < b + len` is bit `b + len - 1 - p` of `val` (bit
`len - 1 - k` at position `b + k`), every other bit is the bit of the old
buffer; a byte other than the two at `b / 8` and `b / 8 + 1` is unchanged;
and with `len = 0` the buffer is unchanged. -/
theorem c15_bit_writer (buf : Nat → Nat) (b val len p i : Nat) (hlen : len ≤ 8) :
    get_bit (bit_set buf b val len) p =
      (if b ≤ p ∧ p < b + len then val.testBit (b + len - 1 - p) else get_bit buf p) ∧
    (i = b / 8 ∨ i = b / 8 + 1 ∨ bit_set buf b val len i = buf i) ∧
    bit_set buf b val 0 = buf := by
  refine ⟨get_bit_bit_set buf b val len p hlen, ?_, by simp [bit_set]⟩
  by_cases h1 : i = b / 8
  · left; exact h1
  · by_cases h2 : i = b / 8 + 1
    · right; left; exact h2
    · right; right; exact bit_set_byte_other buf b val len i h1 h2

theorem c15_bit_writer_witness :
    5 ≤ 8 ∧
    (get_bit (bit_set (fun _ => 170) 6 255 5) 9 =
      (if 6 ≤ 9 ∧ 9 < 6 + 5 then (255 : Nat).testBit (6 + 5 - 1 - 9)
        else get_bit (fun _ => 170) 9) ∧
    (2 = 6 / 8 ∨ 2 = 6 / 8 + 1 ∨ bit_set (fun _ => 170) 6 255 5 2 = (fun _ => 170) 2) ∧
    bit_set (fun _ => 170) 6 255 0 = (fun _ => 170)) :=
  ⟨by decide, c15_bit_writer (fun _ => 170) 6 255 5 9 2 (by decide)⟩

/-! ## Claims C16, C17 and C18 -/

/-- C16 fails on the code. The document `0b11111 {3}0xf` is made of two valid
items of 5 and 3 bits; in a buffer of one byte the 8 bits fit, and with two
bytes `binstr_parse` returns 8. With one byte it returns `-1`: at the digit
`f`, of which 3 bits are kept, the test at line 101 asks for room for the 4
bits of the whole digit. -/
theorem c16_fitting_document_fails :
    (binstr_parse ['0', 'b', '1', '1', '1', '1', '1', ' ', '{', '3', '}', '0', 'x', 'f']
      (fun _ => 0) 2).1 = 8 ∧
    (binstr_parse ['0', 'b', '1', '1', '1', '1', '1', ' ', '{', '3', '}', '0', 'x', 'f']
      (fun _ => 0) 1).1 = -1 := by
  decide

/-- C17 fails on the code. The empty document parses to 0 bits, and the byte
at index 0 = ceil(0/8) goes from 255 to 0; the document `0xff` parses to 8
bits, and the byte at index 1 = ceil(8/8) goes from 255 to 0: when the cursor
is a multiple of 8 the final call is `bit_set(buf, n, 0, 8)`. -/
theorem c17_aligned_cursor_clears_next_byte :
    (binstr_parse [] (fun _ => 255) 4).1 = 0 ∧
    (binstr_parse [] (fun _ => 255) 4).2 0 = 0 ∧
    (binstr_calls [] 4).2 = [⟨0, 0, 8⟩] ∧
    (binstr_parse ['0', 'x', 'f', 'f'] (fun _ => 255) 4).1 = 8 ∧
    (binstr_parse ['0', 'x', 'f', 'f'] (fun _ => 255) 4).2 1 = 0 := by
  decide

/-- C18 fails on the code. For the item `*0`, `sscanf` stores 0 in `rep` and
returns 1, so the repeat count is 0 and `binstr_parse` returns 0; with `*2` the
count is 2. For the item `{8`, `sscanf` stores 8 in `bitlen` and returns 1, so
the item is the decimal numeral `{8` with explicit length 8, and
`binstr_parse` returns 8. -/
theorem c18_unclosed_marks_are_kept :
    item_rep ['*', '0'] = 0 ∧ item_rep ['*', '2'] = 2 ∧
    (binstr_parse ['*', '0'] (fun _ => 255) 4).1 = 0 ∧
    item_bitlen ['{', '8'] = 8 ∧ item_numeral ['{', '8'] = ['{', '8'] ∧
    (binstr_parse ['{', '8'] (fun _ => 255) 4).1 = 8 ∧
    (binstr_parse ['{', '8'] (fun _ => 255) 4).2 0 = 0 := by
  decide

/-! ## Claim C19 -/

/-- C19. For every text, capacity and two initial buffers, `binstr_parse`
returns the same value on both, and the first `ceil(n/8)` bytes of the two
resulting buffers are the same when the value returned is `n ≥ 0` (for `-1`
the list of bytes compared is empty). -/
theorem c19_buffer_independence (text : List Char) (buflen : Int) (buf1 buf2 : Nat → Nat) :
    (binstr_parse text buf1 buflen).1 = (binstr_parse text buf2 buflen).1 ∧
    buffer_bytes (binstr_parse text buf1 buflen).2
        (((binstr_parse text buf1 buflen).1.toNat + 7) / 8)
      = buffer_bytes (binstr_parse text buf2 buflen).2
        (((binstr_parse text buf1 buflen).1.toNat + 7) / 8) := by
  refine ⟨rfl, ?_⟩
  simp only [binstr_parse, buffer_bytes]
  rcases binstr_calls_shape text buflen with ⟨h1, _⟩ | ⟨n, cs, h1, h2, h3⟩
  · rw [h1]
    rfl
  · rw [h1]
    apply List.map_congr_left
    intro i hi
    have hi2 : i < ((n : Int).toNat + 7) / 8 := List.mem_range.mp hi
    have hc : contiguous 0 (cs ++ [⟨(n : Int), 0, 8 - (n : Int) % 8⟩]) := by
      rw [contiguous_append]
      refine ⟨h2, ?_, ?_, ?_, trivial⟩
      · show (n : Int) = 0 + (calls_len cs : Int)
        rw [h3]; omega
      · show (0 : Int) ≤ 8 - (n : Int) % 8
        omega
      · show 8 - (n : Int) % 8 ≤ 8
        omega
    apply run_calls_bytes_eq _ hc
    rw [calls_len_append, h3]
    simp only [calls_len]
    omega

/-! ## Claim C13: white space -/

theorem dropWhile_all (p : Char → Bool) (x : List Char) (h : ∀ c ∈ x, p c = true) :
    x.dropWhile p = [] := by
  induction x with
  | nil => rfl
  | cons c cs ih =>
    simp only [List.dropWhile_cons, h c (List.mem_cons_self _ _), if_true]
    exact ih (fun d hd => h d (List.mem_cons_of_mem _ hd))

theorem rtrim_append_blank (x w : List Char) (hw : ∀ c ∈ w, is_blank c = true) :
    rtrim (x ++ w) = rtrim x := by
  simp only [rtrim, List.reverse_append]
  rw [List.dropWhile_append_of_pos (fun c hc => hw c (List.mem_reverse.mp hc))]

theorem rtrim_append_some (w l : List Char) (hl : ∃ c ∈ l, is_blank c = false) :
    rtrim (w ++ l) = w ++ rtrim l := by
  simp only [rtrim, List.reverse_append]
  rw [dropWhile_append_some _ _ _ (by
    obtain ⟨c, hc, hb⟩ := hl
    exact ⟨c, List.mem_reverse.mpr hc, hb⟩)]
  simp

theorem rtrim_some (l : List Char) (hl : ∃ c ∈ l, is_blank c = false) :
    ∃ c ∈ rtrim l, is_blank c = false := by
  obtain ⟨c, hc, hb⟩ := hl
  have hne : (l.reverse.dropWhile is_blank) ≠ [] := by
    intro e
    have := List.dropWhile_eq_nil_iff.mp e c (List.mem_reverse.mpr hc)
    rw [hb] at this
    exact Bool.noConfusion this
  cases hd : l.reverse.dropWhile is_blank with
  | nil => exact absurd hd hne
  | cons x xs =>
    have hx : is_blank x = false := dropWhile_head_not is_blank l.reverse x (by rw [hd]; rfl)
    exact ⟨x, by simp [rtrim, hd], hx⟩

theorem blank_or_some (l : List Char) :
    (∀ c ∈ l, is_blank c = true) ∨ ∃ c ∈ l, is_blank c = false := by
  induction l with
  | nil => left; intro c hc; cases hc
  | cons x xs ih =>
    by_cases hx : is_blank x = true
    · rcases ih with h | ⟨c, hc, hb⟩
      · left
        intro c hc
        rcases List.mem_cons.mp hc with e | e
        · rw [e]; exact hx
        · exact h c e
      · right; exact ⟨c, List.mem_cons_of_mem _ hc, hb⟩
    · right; exact ⟨x, List.mem_cons_self _ _, by simpa using hx⟩

theorem trim_blank (x : List Char) (h : ∀ c ∈ x, is_blank c = true) : trim x = [] := by
  have : rtrim x = [] := by
    rw [rtrim, dropWhile_all _ _ (fun c hc => h c (List.mem_reverse.mp hc))]
    rfl
  rw [trim, this]
  rfl

/-- White space around a line text is removed by `trim`. -/
theorem trim_pad (w1 l w2 : List Char) (h1 : ∀ c ∈ w1, is_blank c = true)
    (h2 : ∀ c ∈ w2, is_blank c = true) : trim (w1 ++ l ++ w2) = trim l := by
  rw [trim, rtrim_append_blank _ _ h2]
  rcases blank_or_some l with hl | hl
  · rw [trim_blank l hl]
    have hall : ∀ c ∈ w1 ++ l, is_blank c = true := by
      intro c hc
      rcases List.mem_append.mp hc with e | e
      · exact h1 c e
      · exact hl c e
    exact trim_blank _ hall
  · rw [rtrim_append_some _ _ hl, ltrim, List.dropWhile_append_of_pos h1]
    rfl

/-- The items of a line do not depend on the number of spaces in a run of
spaces inside the line. -/
theorem line_items_spaces (a b sp1 sp2 : List Char) (h1 : ∀ c ∈ sp1, c = ' ')
    (h2 : ∀ c ∈ sp2, c = ' ') (n1 : sp1 ≠ []) (n2 : sp2 ≠ []) :
    line_items (a ++ sp1 ++ b) = line_items (a ++ sp2 ++ b) := by
  have hb1 : ∀ c ∈ sp1, is_blank c = true := fun c hc => by rw [h1 c hc]; decide
  have hb2 : ∀ c ∈ sp2, is_blank c = true := fun c hc => by rw [h2 c hc]; decide
  have key : ∀ sp : List Char, (∀ c ∈ sp, c = ' ') → sp ≠ [] →
      (∃ c ∈ a, is_blank c = false) → (∃ c ∈ b, is_blank c = false) →
      (split ' ' (trim (a ++ sp ++ b))).filter (fun it => it ≠ [])
        = (split ' ' (ltrim a)).filter (fun it => it ≠ [])
          ++ (split ' ' (rtrim b)).filter (fun it => it ≠ []) := by
    intro sp hsp hne ha hb
    rw [trim, rtrim_append_some _ _ hb, ltrim, List.append_assoc, dropWhile_append_some _ _ _ ha]
    cases sp with
    | nil => exact absurd rfl hne
    | cons y ys =>
      have hy : y = ' ' := hsp y (List.mem_cons_self _ _)
      rw [hy, List.cons_append, split_append, List.filter_append,
        filter_split_spaces _ _ (fun c hc => hsp c (List.mem_cons_of_mem _ hc))]
      rfl
  rw [line_items_eq_split, line_items_eq_split]
  rcases blank_or_some b with hb | hb
  · have e1 : a ++ sp1 ++ b = [] ++ a ++ (sp1 ++ b) := by simp
    have e2 : a ++ sp2 ++ b = [] ++ a ++ (sp2 ++ b) := by simp
    rw [e1, e2, trim_pad [] a _ (by intro c hc; cases hc), trim_pad [] a _ (by intro c hc; cases hc)]
    · intro c hc
      rcases List.mem_append.mp hc with e | e
      · exact hb2 c e
      · exact hb c e
    · intro c hc
      rcases List.mem_append.mp hc with e | e
      · exact hb1 c e
      · exact hb c e
  · rcases blank_or_some a with ha | ha
    · have e1 : a ++ sp1 ++ b = (a ++ sp1) ++ b ++ [] := by simp
      have e2 : a ++ sp2 ++ b = (a ++ sp2) ++ b ++ [] := by simp
      rw [e1, e2, trim_pad _ b [] _ (by intro c hc; cases hc),
        trim_pad _ b [] _ (by intro c hc; cases hc)]
      · intro c hc
        rcases List.mem_append.mp hc with e | e
        · exact ha c e
        · exact hb2 c e
      · intro c hc
        rcases List.mem_append.mp hc with e | e
        · exact ha c e
        · exact hb1 c e
    · rw [key sp1 h1 n1 ha hb, key sp2 h2 n2 ha hb]

/-- Every text is a part that is empty or ends with a newline, followed by a
part without newline; and a part without newline followed by a part that is
empty or starts with a newline. -/
theorem cut_at_newline (A : List Char) :
    (∃ A0 a, A = A0 ++ a ∧ '\n' ∉ a ∧ A0.getLast?.all (fun c => c == '\n') = true) ∧
    (∃ b B0, A = b ++ B0 ∧ '\n' ∉ b ∧ B0.head?.all (fun c => c == '\n') = true) := by
  constructor
  · refine ⟨(A.reverse.dropWhile (fun c => c != '\n')).reverse,
      (A.reverse.takeWhile (fun c => c != '\n')).reverse, ?_, ?_, ?_⟩
    · rw [← List.reverse_append, List.takeWhile_append_dropWhile, List.reverse_reverse]
    · intro hm
      have := List.mem_takeWhile_imp (List.mem_reverse.mp hm)
      simp at this
    · rw [List.getLast?_reverse]
      cases hd : A.reverse.dropWhile (fun c => c != '\n') with
      | nil => rfl
      | cons x xs =>
        have := dropWhile_head_not (fun c => c != '\n') A.reverse x (by rw [hd]; rfl)
        simpa using this
  · refine ⟨A.takeWhile (fun c => c != '\n'), A.dropWhile (fun c => c != '\n'), ?_, ?_, ?_⟩
    · rw [List.takeWhile_append_dropWhile]
    · intro hm
      have := List.mem_takeWhile_imp hm
      simp at this
    · cases hd : A.dropWhile (fun c => c != '\n') with
      | nil => rfl
      | cons x xs =>
        have := dropWhile_head_not (fun c => c != '\n') A x (by rw [hd]; rfl)
        simpa using this

theorem split_after_lines (A : List Char)
    (hA : A.getLast?.all (fun c => c == '\n') = true) :
    ∃ RA, ∀ T : List Char, split '\n' (A ++ T) = RA ++ split '\n' T := by
  rcases List.eq_nil_or_concat A with h | ⟨A2, x, h⟩
  · exact ⟨[], fun T => by rw [h]; rfl⟩
  · rw [h, List.concat_eq_append] at hA ⊢
    rw [List.getLast?_concat] at hA
    have hx : x = '\n' := by simpa using hA
    refine ⟨split '\n' A2, fun T => ?_⟩
    rw [hx, List.append_assoc, List.singleton_append, split_append]

theorem binstr_parse_congr (t1 t2 : List Char) (h : doc_items t1 = doc_items t2)
    (buf : Nat → Nat) (buflen : Int) : binstr_parse t1 buf buflen = binstr_parse t2 buf buflen := by
  have : binstr_calls t1 buflen = binstr_calls t2 buflen := by
    rw [binstr_calls_eq, binstr_calls_eq, h]
  simp only [binstr_parse, this]

theorem is_pad_spec (w : List Char) (h : is_pad w = true) :
    (∀ c ∈ w, is_blank c = true) ∧ '\n' ∉ w := by
  simp only [is_pad, List.all_eq_true, Bool.or_eq_true, beq_iff_eq] at h
  constructor
  · intro c hc
    rcases h c hc with (e | e) | e <;> rw [e] <;> decide
  · intro hm
    rcases h _ hm with (e | e) | e <;> revert e <;> decide

/-- White space added at both ends of a line of the document changes
nothing. -/
theorem pad_line_parse (A l B w1 w2 : List Char)
    (hA : A.getLast?.all (fun x => x == '\n') = true)
    (hB : B.head?.all (fun x => x == '\n') = true)
    (hl : l.all (fun x => x != '\n') = true) (hw1 : is_pad w1 = true) (hw2 : is_pad w2 = true)
    (buf : Nat → Nat) (buflen : Int) :
    binstr_parse (A ++ (w1 ++ l ++ w2) ++ B) buf buflen = binstr_parse (A ++ l ++ B) buf buflen := by
  obtain ⟨p1, q1⟩ := is_pad_spec w1 hw1
  obtain ⟨p2, q2⟩ := is_pad_spec w2 hw2
  have hl2 : '\n' ∉ l := by
    intro hm
    have := List.all_eq_true.mp hl _ hm
    simp at this
  obtain ⟨PA, PB, hsplit⟩ := split_around_line A B hA hB
  apply binstr_parse_congr
  have m : '\n' ∉ w1 ++ l ++ w2 := by
    intro hm
    simp only [List.mem_append] at hm
    rcases hm with (e | e) | e
    · exact q1 e
    · exact hl2 e
    · exact q2 e
  rw [doc_items_eq_split, doc_items_eq_split, hsplit _ m, hsplit _ hl2]
  simp only [lines_items_append, lines_items, line_items, trim_pad w1 l w2 p1 p2]

/-- C13. `binstr_parse` gives the same return value and the same buffer
(a) when a space anywhere in the text is replaced by `k + 1` spaces;
(b) when runs `w1`, `w2` of spaces, tabs and carriage returns are added at the
start and at the end of a line `l` of the document `A ++ l ++ B`;
(c) when a line `w1` made of spaces, tabs and carriage returns (possibly
empty) is inserted in front of the line `l`, or added after the end of the
text. -/
theorem c13_whitespace_tolerance (X Y A l B w1 w2 : List Char) (k : Nat)
    (hA : A.getLast?.all (fun x => x == '\n') = true)
    (hB : B.head?.all (fun x => x == '\n') = true)
    (hl : l.all (fun x => x != '\n') = true) (hw1 : is_pad w1 = true) (hw2 : is_pad w2 = true)
    (buf : Nat → Nat) (buflen : Int) :
    binstr_parse (X ++ List.replicate (k + 1) ' ' ++ Y) buf buflen
      = binstr_parse (X ++ ' ' :: Y) buf buflen ∧
    binstr_parse (A ++ (w1 ++ l ++ w2) ++ B) buf buflen = binstr_parse (A ++ l ++ B) buf buflen ∧
    binstr_parse (A ++ (w1 ++ '\n' :: l) ++ B) buf buflen
      = binstr_parse (A ++ l ++ B) buf buflen ∧
    binstr_parse (X ++ '\n' :: w1) buf buflen = binstr_parse X buf buflen := by
  obtain ⟨p1, q1⟩ := is_pad_spec w1 hw1
  refine ⟨?_, ?_, ?_, ?_⟩
  · obtain ⟨X0, a, ex, ha, hX0⟩ := (cut_at_newline X).1
    obtain ⟨b, Y0, ey, hb, hY0⟩ := (cut_at_newline Y).2
    obtain ⟨QA, QB, hs⟩ := split_around_line X0 Y0 hX0 hY0
    apply binstr_parse_congr
    have e1 : X ++ List.replicate (k + 1) ' ' ++ Y
        = X0 ++ (a ++ List.replicate (k + 1) ' ' ++ b) ++ Y0 := by rw [ex, ey]; simp
    have e2 : X ++ ' ' :: Y = X0 ++ (a ++ [' '] ++ b) ++ Y0 := by rw [ex, ey]; simp
    have hsp : ∀ c ∈ List.replicate (k + 1) ' ', c = ' ' := fun c hc =>
      (List.mem_replicate.mp hc).2
    have m1 : '\n' ∉ a ++ List.replicate (k + 1) ' ' ++ b := by
      intro hm
      simp only [List.mem_append] at hm
      rcases hm with (e | e) | e
      · exact ha e
      · have := hsp _ e; revert this; decide
      · exact hb e
    have m2 : '\n' ∉ a ++ [' '] ++ b := by
      intro hm
      simp only [List.mem_append, List.mem_singleton] at hm
      rcases hm with (e | e) | e
      · exact ha e
      · revert e; decide
      · exact hb e
    rw [e1, e2, doc_items_eq_split, doc_items_eq_split, hs _ m1, hs _ m2]
    simp only [lines_items_append, lines_items]
    rw [line_items_spaces a b (List.replicate (k + 1) ' ') [' '] hsp
      (fun c hc => List.mem_singleton.mp hc) (by simp) (by simp)]
  · exact pad_line_parse A l B w1 w2 hA hB hl hw1 hw2 buf buflen
  · apply binstr_parse_congr
    obtain ⟨RA, hs2⟩ := split_after_lines A hA
    have e1 : A ++ (w1 ++ '\n' :: l) ++ B = A ++ (w1 ++ '\n' :: (l ++ B)) := by simp
    have e2 : A ++ l ++ B = A ++ (l ++ B) := by simp
    rw [doc_items_eq_split, doc_items_eq_split, e1, e2, hs2, hs2, split_append,
      split_single _ _ q1]
    simp only [lines_items_append, lines_items, line_items_of_trim_nil w1 (trim_blank w1 p1),
      List.nil_append]
    rfl
  · apply binstr_parse_congr
    rw [doc_items_eq_split, doc_items_eq_split, split_append, split_single _ _ q1]
    simp only [lines_items_append, lines_items, line_items_of_trim_nil w1 (trim_blank w1 p1),
      List.append_nil]

theorem c13_whitespace_tolerance_witness :
    ['\n'].getLast?.all (fun x => x == '\n') = true ∧
    ['\n', '0', '7'].head?.all (fun x => x == '\n') = true ∧
    ['0', 'x', '4', ' ', '{', '1', '}', '0'].all (fun x => x != '\n') = true ∧
    is_pad ['\t', ' '] = true ∧ is_pad [' ', '\r'] = true ∧
    (binstr_parse (['0', 'x', '4'] ++ List.replicate (2 + 1) ' ' ++ ['0', 'b', '1']) (fun _ => 0) 2
      = binstr_parse (['0', 'x', '4'] ++ ' ' :: ['0', 'b', '1']) (fun _ => 0) 2 ∧
    binstr_parse (['\n'] ++ (['\t', ' '] ++ ['0', 'x', '4', ' ', '{', '1', '}', '0'] ++ [' ', '\r'])
        ++ ['\n', '0', '7']) (fun _ => 0) 2
      = binstr_parse (['\n'] ++ ['0', 'x', '4', ' ', '{', '1', '}', '0'] ++ ['\n', '0', '7'])
        (fun _ => 0) 2 ∧
    binstr_parse (['\n'] ++ (['\t', ' '] ++ '\n' :: ['0', 'x', '4', ' ', '{', '1', '}', '0'])
        ++ ['\n', '0', '7']) (fun _ => 0) 2
      = binstr_parse (['\n'] ++ ['0', 'x', '4', ' ', '{', '1', '}', '0'] ++ ['\n', '0', '7'])
        (fun _ => 0) 2 ∧
    binstr_parse (['0', 'x', '4'] ++ '\n' :: ['\t', ' ']) (fun _ => 0) 2
      = binstr_parse ['0', 'x', '4'] (fun _ => 0) 2) :=
  ⟨by decide, by decide, by decide, by decide, by decide,
    c13_whitespace_tolerance ['0', 'x', '4'] ['0', 'b', '1'] ['\n']
      ['0', 'x', '4', ' ', '{', '1', '}', '0'] ['\n', '0', '7'] ['\t', ' '] [' ', '\r'] 2
      (by decide) (by decide) (by decide) (by decide) (by decide) (fun _ => 0) 2⟩

/-! ## Claim C14: the formatted front end -/

theorem truncated_rendering (n : Nat) (hn : n + 4 = 2048) :
    (List.replicate n ' ' ++ ['0', 'x', 'f', 'f']).length = 2048 ∧
    (vsnprintf 2048 (List.replicate n ' ' ++ ['0', 'x', 'f', 'f'])).2
      = List.replicate n ' ' ++ ['0', 'x', 'f'] ∧
    (binstr_snprintf (List.replicate n ' ' ++ ['0', 'x', 'f', 'f']) (fun _ => 0) 4).1 = 4 ∧
    (binstr_parse (List.replicate n ' ' ++ ['0', 'x', 'f', 'f']) (fun _ => 0) 4).1 = 8 := by
  have hlen : (List.replicate n ' ' ++ ['0', 'x', 'f', 'f']).length = 2048 := by
    rw [List.length_append, List.length_replicate]
    exact hn
  have htake : (vsnprintf 2048 (List.replicate n ' ' ++ ['0', 'x', 'f', 'f'])).2
      = List.replicate n ' ' ++ ['0', 'x', 'f'] := by
    simp only [vsnprintf]
    have e : 2048 - 1 = (List.replicate n ' ').length + 3 := by
      rw [List.length_replicate]; omega
    rw [e, List.take_append]
    rfl
  have hpad : is_pad (List.replicate n ' ') = true := by
    simp only [is_pad, List.all_eq_true]
    intro c hc
    rw [(List.mem_replicate.mp hc).2]
    decide
  have key : ∀ l : List Char, l.all (fun x => x != '\n') = true →
      binstr_parse (List.replicate n ' ' ++ l) (fun _ => 0) 4 = binstr_parse l (fun _ => 0) 4 := by
    intro l hl
    have := pad_line_parse [] l [] (List.replicate n ' ') [] rfl rfl hl hpad rfl (fun _ => 0) 4
    simpa using this
  refine ⟨hlen, htake, ?_, ?_⟩
  · have h1 : (vsnprintf 2048 (List.replicate n ' ' ++ ['0', 'x', 'f', 'f'])).1 = 2048 := by
      simp only [vsnprintf, hlen]
      rfl
    simp only [binstr_snprintf, h1, htake]
    rw [if_neg (by decide), if_neg (by decide), key _ (by decide)]
    decide
  · rw [key _ (by decide)]
    decide

/-- C14 fails on the code. A rendering of exactly 2048 characters does not
fit in the 2048 bytes of `format` with its terminator: `vsnprintf` returns
2048 and stores the first 2047 characters. The test `ret > sizeof(format)` lets
2048 through, and `binstr_parse` runs on the truncated text: for 2044 spaces
followed by `0xff`, whose complete text parses to 8 bits, `binstr_snprintf`
returns 4, the parse of the text cut after `0xf`, instead of `-1`. -/
theorem c14_truncated_rendering_parsed :
    (List.replicate 2044 ' ' ++ ['0', 'x', 'f', 'f']).length = 2048 ∧
    (vsnprintf 2048 (List.replicate 2044 ' ' ++ ['0', 'x', 'f', 'f'])).2
      = List.replicate 2044 ' ' ++ ['0', 'x', 'f'] ∧
    (binstr_snprintf (List.replicate 2044 ' ' ++ ['0', 'x', 'f', 'f']) (fun _ => 0) 4).1 = 4 ∧
    (binstr_parse (List.replicate 2044 ' ' ++ ['0', 'x', 'f', 'f']) (fun _ => 0) 4).1 = 8 :=
  truncated_rendering 2044 (by decide)

/-! ## The program with 32-bit `int` -/

theorem to_int_id (z : Int) (h1 : -2147483648 ≤ z) (h2 : z < 2147483648) : to_int z = z := by
  simp only [to_int]
  omega

theorem to_int_to_long (z : Int) (h1 : -2147483648 ≤ z) (h2 : z < 2147483648) :
    to_int (to_long z) = z := by
  have : to_long z = z := by
    simp only [to_long]
    split
    · omega
    · split
      · omega
      · rfl
  rw [this, to_int_id z h1 h2]

/-- The repeat count and the explicit length with 32-bit `int` are the numbers
read, converted. -/
theorem item_rep_int_eq (it : List Char) :
    item_rep_int it = to_int (to_long (item_rep it)) ∧
    item_bitlen_int it = to_int (to_long (item_bitlen it)) := by
  constructor
  · simp only [item_rep_int, item_rep, sscanf_d_int]
    split
    · rfl
    · cases (sscanf_d '*' '*' it).val <;> rfl
  · simp only [item_bitlen_int, item_bitlen, sscanf_d_int]
    split
    · rfl
    · cases (sscanf_d '{' '}' (List.drop (item_index it) it)).val <;> rfl

theorem items_run_int_append (buflen : Int) (a b : List (List Char)) (bitindex : Int) :
    items_run_int buflen (a ++ b) bitindex
      = and_then (items_run_int buflen a bitindex) (items_run_int buflen b) := by
  induction a generalizing bitindex with
  | nil => simp [items_run_int, and_then_some]
  | cons it rest ih =>
    rw [List.cons_append]
    simp only [items_run_int]
    rw [and_then_assoc]
    congr 1
    funext b2
    exact ih b2

theorem item_loop_int_eq (buflen : Int) (pieces : List (List Char)) (bitindex : Int) :
    item_loop_int buflen pieces bitindex
      = items_run_int buflen ((pieces.filter (fun it => it ≠ [])).takeWhile
          (fun it => it.head? ≠ some '#')) bitindex := by
  induction pieces generalizing bitindex with
  | nil => simp [item_loop_int, items_run_int]
  | cons it rest ih =>
    by_cases h1 : it = []
    · simp only [item_loop_int, h1, if_true]
      rw [ih]
      simp
    · by_cases h2 : it.head? = some '#'
      · simp [item_loop_int, h1, h2, items_run_int]
      · simp only [item_loop_int, h1, h2, if_false]
        have : (List.filter (fun it => decide (it ≠ [])) (it :: rest)).takeWhile
            (fun it => decide (it.head? ≠ some '#'))
            = it :: ((List.filter (fun it => decide (it ≠ [])) rest).takeWhile
              (fun it => decide (it.head? ≠ some '#'))) := by
          simp [h1, h2]
        rw [this]
        simp only [items_run_int]
        congr 1
        funext b2
        exact ih b2

theorem line_loop_int_eq (buflen : Int) (lines : List (List Char)) (bitindex : Int) :
    line_loop_int buflen lines bitindex = items_run_int buflen (lines_items lines) bitindex := by
  induction lines generalizing bitindex with
  | nil => simp [line_loop_int, lines_items, items_run_int]
  | cons l ls ih =>
    by_cases h : trim l = []
    · simp only [line_loop_int, h, if_true, lines_items, line_items_of_trim_nil l h,
        List.nil_append]
      exact ih bitindex
    · simp only [line_loop_int, h, if_false, lines_items]
      rw [items_run_int_append, item_loop_int_eq]
      congr 1
      funext b2
      exact ih b2

/-- With 32-bit `int` too, the driver is the run over the items of the
document, followed by the final `bit_set` when no item failed. -/
theorem binstr_calls_int_eq (text : List Char) (buflen : Int) :
    binstr_calls_int text buflen =
      match (items_run_int buflen (doc_items text) 0).1 with
      | none => (-1, (items_run_int buflen (doc_items text) 0).2)
      | some b => (b, (items_run_int buflen (doc_items text) 0).2
          ++ [⟨b, 0, to_int (8 - Int.tmod b 8)⟩]) := by
  simp only [binstr_calls_int, line_loop_int_eq, doc_items]

theorem rep_loop_int_one (num : List Char) (bitlen buflen b : Int) :
    rep_loop_int num bitlen buflen 1 b =
      if (sscanf_item_int num bitlen buflen b).1 < 0
      then (none, (sscanf_item_int num bitlen buflen b).2)
      else (some (to_int (b + (sscanf_item_int num bitlen buflen b).1)),
        (sscanf_item_int num bitlen buflen b).2) := by
  simp only [rep_loop_int]
  split
  · rfl
  · simp [and_then]

theorem rep_loop_int_succ (num : List Char) (bitlen buflen : Int) (n : Nat) (b : Int) :
    rep_loop_int num bitlen buflen (n + 1) b
      = and_then (rep_loop_int num bitlen buflen 1 b) (rep_loop_int num bitlen buflen n) := by
  rw [rep_loop_int_one]
  simp only [rep_loop_int]
  split
  · simp [and_then]
  · rfl

theorem items_run_int_replicate (buflen : Int) (X : List Char) (hrep : item_rep_int X = 1)
    (n : Nat) (b : Int) :
    items_run_int buflen (List.replicate n X) b
      = rep_loop_int (item_numeral X) (item_bitlen_int X) buflen n b := by
  induction n generalizing b with
  | zero => rfl
  | succ n ih =>
    rw [List.replicate_succ, rep_loop_int_succ]
    simp only [items_run_int, item_step_int, hrep]
    rw [show (1 : Int).toNat = 1 from rfl]
    congr 1
    funext b2
    exact ih b2

theorem single_item_calls_int (text : List Char) (buflen : Int) (hdoc : doc_items text = [text])
    (hrep : item_rep_int text = 1) :
    binstr_calls_int text buflen =
      if (sscanf_item_int (item_numeral text) (item_bitlen_int text) buflen 0).1 < 0
      then (-1, (sscanf_item_int (item_numeral text) (item_bitlen_int text) buflen 0).2)
      else (to_int (0 + (sscanf_item_int (item_numeral text) (item_bitlen_int text) buflen 0).1),
        (sscanf_item_int (item_numeral text) (item_bitlen_int text) buflen 0).2 ++
          [⟨to_int (0 + (sscanf_item_int (item_numeral text) (item_bitlen_int text) buflen 0).1),
            0, to_int (8 - Int.tmod
              (to_int (0 + (sscanf_item_int (item_numeral text) (item_bitlen_int text)
                buflen 0).1)) 8)⟩]) := by
  rw [binstr_calls_int_eq, hdoc]
  simp only [items_run_int, and_then_pure, item_step_int, hrep]
  rw [show (1 : Int).toNat = 1 from rfl, rep_loop_int_one]
  by_cases h : (sscanf_item_int (item_numeral text) (item_bitlen_int text) buflen 0).1 < 0
  · simp only [h, if_true]
  · simp only [h, if_false]

/-- The decimal loop with 32-bit `int` makes the same calls as with
mathematical integers when every offset fits. -/
theorem dec_loop_int_eq (v : Nat) (s : Int) (fuel : Nat) : ∀ (i biti : Int),
    0 ≤ biti → 0 ≤ s → s + biti + max i 0 < 2147483648 →
    dec_loop_int v s fuel i biti = dec_loop v s fuel i biti := by
  induction fuel with
  | zero => intro i biti _ _ _; rfl
  | succ fuel ih =>
    intro i biti h0 hs hlt
    by_cases hpos : i > 0
    · have hlen : (0 : Int) ≤ (if i < 8 then i else 8) ∧ (if i < 8 then i else 8) ≤ i := by
        split <;> omega
      simp only [dec_loop_int, dec_loop, hpos, if_true]
      rw [to_int_id (s + biti) (by omega) (by omega),
        to_int_id (biti + (if i < 8 then i else 8)) (by omega) (by omega),
        ih (i - 8) (biti + (if i < 8 then i else 8)) (by omega) hs (by omega)]
    · simp only [dec_loop_int, dec_loop, hpos, if_false]

/-- On a numeral taken as decimal, at cursor 0, `sscanf_item` is the same
with 32-bit `int`. -/
theorem sscanf_item_int_decimal (d : List Char) (hnb : is_based d = false) (L buflen : Int) :
    sscanf_item_int d L buflen 0 = sscanf_item d L buflen 0 := by
  simp only [sscanf_item_int, sscanf_item, hnb, Bool.false_eq_true, if_false]
  split
  · rfl
  · split
    · rfl
    · rename_i h1 h2
      exact dec_loop_int_eq _ 0 _ L 0 (le_refl 0) (le_refl 0) (by omega)

theorem pad_loop_int_eq (s : Int) (k : Nat) : ∀ (biti : Int),
    0 ≤ s → 0 ≤ biti → s + biti + (k : Int) < 2147483648 →
    pad_loop_int s k biti = pad_loop s k biti := by
  induction k with
  | zero => intro biti _ _ _; rfl
  | succ k ih =>
    intro biti hs h0 hlt
    simp only [pad_loop_int, pad_loop]
    rw [to_int_id (s + biti) (by omega) (by omega), to_int_id (biti + 1) (by omega) (by omega),
      ih (biti + 1) hs (by omega) (by push_cast at hlt; omega)]

/-- The digit loop with 32-bit `int` is the digit loop with mathematical
integers when the offsets fit, `buflen * 8` fits, and the difference
`actual_bitlen - bitlen` of line 109 fits. -/
theorem digit_loop_int_eq (dl ab buflen s : Int) (hdl1 : 1 ≤ dl) (hdl2 : dl ≤ 4)
    (hs : 0 ≤ s) (hbuf1 : -2147483648 ≤ buflen * 8) (hbuf2 : buflen * 8 < 2147483648)
    (hab1 : -2147483648 ≤ ab) (hab2 : ab < 2147483648) (cs : List Char) :
    ∀ (bitlen biti : Int), 0 ≤ biti → s + biti + dl * (cs.length : Int) < 2147483648 →
    -2147483648 ≤ bitlen → bitlen < 2147483648 → ab - bitlen < 2147483648 →
    digit_loop_int dl ab buflen s cs bitlen biti = digit_loop dl ab buflen s cs bitlen biti := by
  induction cs with
  | nil => intro bitlen biti _ _ _ _ _; rfl
  | cons c cs ih =>
    intro bitlen biti h0 hlt hb1 hb2 hd
    have hlen : dl * ((c :: cs).length : Int) = dl * (cs.length : Int) + dl := by
      simp only [List.length_cons]; push_cast; ring
    rw [hlen] at hlt
    have hcs : 0 ≤ dl * (cs.length : Int) := by positivity
    have hdrop : (0 : Int) ≤ (if bitlen < ab then min dl (ab - bitlen) else 0) ∧
        (if bitlen < ab then min dl (ab - bitlen) else 0) ≤ dl ∧
        bitlen + (if bitlen < ab then min dl (ab - bitlen) else 0) ≤ max ab bitlen := by
      split
      · refine ⟨?_, ?_, ?_⟩
        · exact le_min (by omega) (by omega)
        · exact min_le_left _ _
        · have := min_le_right dl (ab - bitlen); omega
      · omega
    have e1 : to_int (ab - bitlen) = ab - bitlen ∨ ¬ bitlen < ab := by
      by_cases h : bitlen < ab
      · left; exact to_int_id _ (by omega) hd
      · right; exact h
    have e2 : (if bitlen < ab then min dl (to_int (ab - bitlen)) else 0)
        = (if bitlen < ab then min dl (ab - bitlen) else 0) := by
      rcases e1 with e | e
      · rw [e]
      · simp only [e, if_false]
    simp only [digit_loop_int, digit_loop]
    rw [e2, to_int_id (s + biti) (by omega) (by omega),
      to_int_id (s + biti + dl) (by omega) (by omega),
      to_int_id (buflen * 8) hbuf1 hbuf2,
      to_int_id (dl - (if bitlen < ab then min dl (ab - bitlen) else 0)) (by omega) (by omega),
      to_int_id (bitlen + (if bitlen < ab then min dl (ab - bitlen) else 0)) (by omega) (by omega),
      to_int_id (biti + (dl - (if bitlen < ab then min dl (ab - bitlen) else 0)))
        (by omega) (by omega),
      ih (bitlen + (if bitlen < ab then min dl (ab - bitlen) else 0))
        (biti + (dl - (if bitlen < ab then min dl (ab - bitlen) else 0)))
        (by omega) (by omega) (by omega) (by omega) (by omega)]

/-- Agreement of the two embeddings of `sscanf_item`: with a cursor `b ≥ 0`,
an `int` length `L`, `buflen * 8` within `int`, the offsets
`b + max(L, 4 * length)` within `int` and `4 * length - L` within `int`, the
decoder with 32-bit `int` returns the same value and makes the same calls as
the decoder with mathematical integers. -/
theorem sscanf_item_int_eq (item : List Char) (L buflen b : Int) (hb : 0 ≤ b)
    (hL1 : -2147483648 ≤ L) (hL2 : L < 2147483648)
    (hbuf1 : -2147483648 ≤ buflen * 8) (hbuf2 : buflen * 8 < 2147483648)
    (hoff : b + max L (4 * (item.length : Int)) < 2147483648)
    (hdiff : 4 * (item.length : Int) - L < 2147483648) :
    sscanf_item_int item L buflen b = sscanf_item item L buflen b := by
  by_cases hbased : is_based item = true
  · simp only [sscanf_item_int, sscanf_item, hbased, if_true]
    generalize hdl : (if item.getD 1 '0' = 'x' then (4 : Int)
      else if item.getD 1 '0' = 'b' then 1 else 3) = dl
    generalize hst : (if item.getD 1 '0' = 'x' then (2 : Nat)
      else if item.getD 1 '0' = 'b' then 2 else 1) = st
    have hdl1 : 1 ≤ dl ∧ dl ≤ 4 := by
      rw [← hdl]; split
      · omega
      · split <;> omega
    have hn : ((item.length - st : Nat) : Int) ≤ (item.length : Int) := by omega
    have hn0 : (0 : Int) ≤ ((item.length - st : Nat) : Int) := by omega
    have hab : 0 ≤ ((item.length - st : Nat) : Int) * dl ∧
        ((item.length - st : Nat) : Int) * dl ≤ 4 * (item.length : Int) := by
      constructor
      · exact mul_nonneg hn0 (by omega)
      · nlinarith [hdl1.1, hdl1.2]
    have hmax := le_max_left L (4 * (item.length : Int))
    have hmax2 := le_max_right L (4 * (item.length : Int))
    rw [to_int_id (((item.length - st : Nat) : Int) * dl) (by omega) (by omega)]
    generalize hA : ((item.length - st : Nat) : Int) * dl = ab at hab
    have hdrop : ((item.drop st).length : Int) = ((item.length - st : Nat) : Int) := by
      rw [List.length_drop]
    by_cases hm1 : L = -1
    · simp only [hm1, if_true]
      rw [show pad_loop_int b 0 0 = pad_loop b 0 0 from rfl,
        show to_int ((0 : Nat) : Int) = ((0 : Nat) : Int) from rfl,
        digit_loop_int_eq dl ab buflen b hdl1.1 hdl1.2 hb hbuf1 hbuf2 (by omega) (by omega)
          (item.drop st) ab _ (by simp) (by rw [hdrop, mul_comm, hA]; simp; omega)
          (by omega) (by omega) (by omega)]
    · simp only [hm1, if_false]
      have hnp : (((L - ab).toNat : Nat) : Int) = max (L - ab) 0 := by
        rw [Int.toNat_eq_max]
      have hnp2 : (0 : Int) ≤ max (L - ab) 0 ∧ (max (L - ab) 0 = L - ab ∨ max (L - ab) 0 = 0 ∧ L ≤ ab) := by
        rcases le_total (L - ab) 0 with h | h
        · rw [max_eq_right h]; exact ⟨le_refl _, Or.inr ⟨rfl, by omega⟩⟩
        · rw [max_eq_left h]; exact ⟨h, Or.inl rfl⟩
      rw [pad_loop_int_eq b _ 0 hb (le_refl 0) (by rw [hnp]; omega),
        to_int_id _ (by rw [hnp]; omega) (by rw [hnp]; omega),
        digit_loop_int_eq dl ab buflen b hdl1.1 hdl1.2 hb hbuf1 hbuf2 (by omega) (by omega)
          (item.drop st) _ _ (by rw [hnp]; omega)
          (by rw [hdrop, mul_comm, hA, hnp]; omega)
          (by split <;> omega) (by split <;> omega) (by split <;> omega)]
  · have hnb : is_based item = false := by simpa using hbased
    simp only [sscanf_item_int, sscanf_item, hnb, Bool.false_eq_true, if_false]
    split
    · rfl
    · split
      · rfl
      · rename_i h1 h2
        have hmax := le_max_left L (4 * (item.length : Int))
        exact dec_loop_int_eq _ b _ L 0 (le_refl 0) hb (by omega)

theorem sscanf_item_int_eq_witness :
    sscanf_item_int ['0', 'x', 'f', 'f'] (-5) 3 0 = sscanf_item ['0', 'x', 'f', 'f'] (-5) 3 0 :=
  sscanf_item_int_eq _ (-5) 3 0 (by decide) (by decide) (by decide) (by decide) (by decide)
    (by decide) (by decide)

/-- On that domain the calls of the decoder with 32-bit `int` are contiguous
from the cursor (each length in `0..8`), and the value returned is `-1` or the
number of bits they write. -/
theorem sscanf_item_int_contig (item : List Char) (L buflen b : Int) (hb : 0 ≤ b)
    (hL1 : -2147483648 ≤ L) (hL2 : L < 2147483648)
    (hbuf1 : -2147483648 ≤ buflen * 8) (hbuf2 : buflen * 8 < 2147483648)
    (hoff : b + max L (4 * (item.length : Int)) < 2147483648)
    (hdiff : 4 * (item.length : Int) - L < 2147483648) :
    contiguous b (sscanf_item_int item L buflen b).2 ∧
    ((sscanf_item_int item L buflen b).1 = -1 ∨
      (sscanf_item_int item L buflen b).1 = calls_len (sscanf_item_int item L buflen b).2) := by
  rw [sscanf_item_int_eq item L buflen b hb hL1 hL2 hbuf1 hbuf2 hoff hdiff]
  exact sscanf_item_contig item L buflen b

/-! ## Claims C4, C5 and C20, with 32-bit `int` -/

/-- C4 as stated fails on the code: `4294967304` is above 64, and stored in
the `int` `bitlen` it is 8, so `{4294967304}1` is the decimal numeral `1` on 8
bits and `binstr_parse` returns 8, not `-1`. -/
theorem c4_counterexample :
    (64 : Nat) < 4294967304 ∧ is_based ['1'] = false ∧
    item_bitlen_int (with_length (some 4294967304) ['1']) = 8 ∧
    (binstr_parse_int (with_length (some 4294967304) ['1']) (fun _ => 0) 1).1 = 8 ∧
    (binstr_parse_int (with_length (some 4294967304) ['1']) (fun _ => 0) 1).2 0 = 1 ∧
    (binstr_parse_int (with_length (some 4294967304) ['1']) (fun _ => 0) 1).1 ≠ -1 := by
  decide

/-- C4, as amended. For a decimal numeral `d`: `{64}d` parses and returns 64
(whatever the value of `d`); `{L}d` returns `-1` for every `L` above 64 that an
`int` holds (`L < 2^31`); and `d` without an explicit length returns `-1`. -/
theorem c4_decimal_boundary (d : List Char) (hne : d ≠ []) (hdig : d.all isdigit = true)
    (hnb : is_based d = false) (L : Nat) (hL : 64 < L) (hint : L < 2147483648)
    (buf : Nat → Nat) (buflen : Int) :
    (binstr_parse_int (with_length (some 64) d) buf buflen).1 = 64 ∧
    (binstr_parse_int (with_length (some L) d) buf buflen).1 = -1 ∧
    (binstr_parse_int (with_length none d) buf buflen).1 = -1 := by
  obtain ⟨hd, hp⟩ := digits_plain d hdig
  have hone : to_int (to_long 1) = 1 := by decide
  refine ⟨?_, ?_, ?_⟩
  · obtain ⟨b1, b2, b3, b4⟩ := braced_item 64 d hp
    obtain ⟨a1, _, _, _⟩ := sscanf_item_decimal d hnb 64 (le_refl _) buflen 0
    have r1 : item_rep_int ('{' :: (nat_text 64 ++ '}' :: d)) = 1 := by
      rw [(item_rep_int_eq _).1, b2, hone]
    have r2 : item_bitlen_int ('{' :: (nat_text 64 ++ '}' :: d)) = ((64 : Nat) : Int) := by
      rw [(item_rep_int_eq _).2, b3]; rfl
    simp only [binstr_parse_int, with_length]
    rw [single_item_calls_int _ buflen b1 r1, b4, r2, sscanf_item_int_decimal d hnb, a1]
    rfl
  · obtain ⟨b1, b2, b3, b4⟩ := braced_item L d hp
    have r1 : item_rep_int ('{' :: (nat_text L ++ '}' :: d)) = 1 := by
      rw [(item_rep_int_eq _).1, b2, hone]
    have r2 : item_bitlen_int ('{' :: (nat_text L ++ '}' :: d)) = (L : Int) := by
      rw [(item_rep_int_eq _).2, b3, to_int_to_long _ (by omega) (by omega)]
    simp only [binstr_parse_int, with_length]
    rw [single_item_calls_int _ buflen b1 r1, b4, r2, sscanf_item_int_decimal d hnb,
      sscanf_item_decimal_fail d hnb _ (by right; omega) buflen 0]
    rfl
  · cases d with
    | nil => exact absurd rfl hne
    | cons c cs =>
      have hc := hd c (List.mem_cons_self _ _)
      obtain ⟨b1, b2, b3, b4⟩ := bare_item (c :: cs) hne hp
        (by simp only [List.head?_cons, ne_eq, Option.some.injEq]; exact isdigit_ne hc (by decide))
        (by simp only [List.head?_cons, ne_eq, Option.some.injEq]; exact isdigit_ne hc (by decide))
        (by simp only [List.head?_cons, ne_eq, Option.some.injEq]; exact isdigit_ne hc (by decide))
      have r1 : item_rep_int (c :: cs) = 1 := by rw [(item_rep_int_eq _).1, b2, hone]
      have r2 : item_bitlen_int (c :: cs) = -1 := by rw [(item_rep_int_eq _).2, b3]; decide
      simp only [binstr_parse_int, with_length]
      rw [single_item_calls_int _ buflen b1 r1, b4, r2, sscanf_item_int_decimal _ hnb,
        sscanf_item_decimal_fail _ hnb _ (by left; omega) buflen 0]
      rfl

theorem c4_decimal_boundary_witness :
    ['7'] ≠ [] ∧ ['7'].all isdigit = true ∧ is_based ['7'] = false ∧ 64 < 65 ∧
    65 < 2147483648 ∧
    ((binstr_parse_int (with_length (some 64) ['7']) (fun _ => 0) 8).1 = 64 ∧
    (binstr_parse_int (with_length (some 65) ['7']) (fun _ => 0) 8).1 = -1 ∧
    (binstr_parse_int (with_length none ['7']) (fun _ => 0) 8).1 = -1) :=
  ⟨by decide, by decide, by decide, by decide, by decide,
    c4_decimal_boundary ['7'] (by decide) (by decide) (by decide) 65 (by decide) (by decide)
      (fun _ => 0) 8⟩

theorem and_then_fst_some (b : Int) (cs : List BitSetCall) (k : Int → Outcome) :
    (and_then (some b, cs) k).1 = (k b).1 := rfl

/-- In a buffer of one byte, a line of two or more copies of `0xff` fails. -/
theorem copies_fail (n : Nat) (buf : Nat → Nat) :
    (binstr_parse_int (join_items (List.replicate (n + 2) ['0', 'x', 'f', 'f'])) buf 1).1
      = -1 := by
  obtain ⟨x1, x2, x3, x4, x5, x6, x7⟩ := plain_item_spec ['0', 'x', 'f', 'f'] (by decide)
  have hdoc : doc_items (join_items (List.replicate (n + 2) ['0', 'x', 'f', 'f']))
      = List.replicate (n + 2) ['0', 'x', 'f', 'f'] := by
    apply doc_items_join
    · intro it hit; rw [(List.mem_replicate.mp hit).2]; exact x1
    · intro it hit; rw [(List.mem_replicate.mp hit).2]; exact x2
    · intro it hit; rw [(List.mem_replicate.mp hit).2]; exact x3
    · intro it hit; rw [(List.mem_replicate.mp hit).2]; exact x5
    · intro it c h1 h2
      have : it ∈ List.replicate (n + 2) ['0', 'x', 'f', 'f'] := List.mem_of_mem_head? h1
      rw [(List.mem_replicate.mp this).2] at h2
      exact x6 c h2
    · intro it c h1 h2
      have : it ∈ List.replicate (n + 2) ['0', 'x', 'f', 'f'] := List.mem_of_mem_getLast? h1
      rw [(List.mem_replicate.mp this).2] at h2
      exact x7 c h2
  have h1 : (item_step_int 1 ['0', 'x', 'f', 'f'] 0).1 = some 8 := by decide
  have h2 : (item_step_int 1 ['0', 'x', 'f', 'f'] 8).1 = none := by decide
  have hrun : (items_run_int 1 (List.replicate (n + 2) ['0', 'x', 'f', 'f']) 0).1 = none := by
    rw [List.replicate_succ, List.replicate_succ]
    simp only [items_run_int]
    cases hs : item_step_int 1 ['0', 'x', 'f', 'f'] 0 with
    | mk o cs =>
      rw [hs] at h1
      simp only at h1
      rw [h1, and_then_fst_some]
      cases hs2 : item_step_int 1 ['0', 'x', 'f', 'f'] 8 with
      | mk o2 cs2 =>
        rw [hs2] at h2
        simp only at h2
        rw [h2]
        rfl
  simp only [binstr_parse_int]
  rw [binstr_calls_int_eq, hdoc, hrun]

/-- C5 as stated fails on the code: stored in the `int` `rep`, `4294967297` is
1, so `*4294967297*0xff` decodes `0xff` once and returns 8 in a buffer of one
byte, while the line of `4294967297` copies of `0xff` returns `-1` there. -/
theorem c5_counterexample :
    plain_item ['0', 'x', 'f', 'f'] = true ∧
    item_rep_int ('*' :: (int_text 4294967297 ++ '*' :: ['0', 'x', 'f', 'f'])) = 1 ∧
    (binstr_parse_int ('*' :: (int_text 4294967297 ++ '*' :: ['0', 'x', 'f', 'f']))
      (fun _ => 0) 1).1 = 8 ∧
    (binstr_parse_int (join_items (List.replicate (4294967297 : Int).toNat
      ['0', 'x', 'f', 'f'])) (fun _ => 0) 1).1 = -1 ∧
    (binstr_parse_int ('*' :: (int_text 4294967297 ++ '*' :: ['0', 'x', 'f', 'f']))
      (fun _ => 0) 1).1 ≠
    (binstr_parse_int (join_items (List.replicate (4294967297 : Int).toNat
      ['0', 'x', 'f', 'f'])) (fun _ => 0) 1).1 := by
  have hn : (4294967297 : Int).toNat = 4294967295 + 2 := by decide
  have hline : (binstr_parse_int (join_items (List.replicate (4294967297 : Int).toNat
      ['0', 'x', 'f', 'f'])) (fun _ => 0) 1).1 = -1 := by
    rw [hn]
    exact copies_fail 4294967295 (fun _ => 0)
  refine ⟨by decide, by decide, by decide, hline, ?_⟩
  rw [hline]
  decide

/-- C5, as amended. For every integer `N` that an `int` holds
(`-2^31 ≤ N < 2^31`) and every item `X` (not empty, without space or newline,
not starting with `*` or `#`, without tab or carriage return at either end),
`binstr_parse` of `*N*X` gives the same return value and the same buffer as
`binstr_parse` of the line made of `X` written `max(N, 0)` times with single
spaces in between; for `N ≤ 0` this line is empty. -/
theorem c5_repeat_equivalence (N : Int) (hN1 : -2147483648 ≤ N) (hN2 : N < 2147483648)
    (X : List Char) (hX : plain_item X = true) (buf : Nat → Nat) (buflen : Int) :
    binstr_parse_int ('*' :: (int_text N ++ '*' :: X)) buf buflen
      = binstr_parse_int (join_items (List.replicate N.toNat X)) buf buflen := by
  obtain ⟨s1, s2, s3, s4, s5⟩ := starred_item N X hX
  obtain ⟨x1, x2, x3, x4, x5, x6, x7⟩ := plain_item_spec X hX
  have r1 : item_rep_int ('*' :: (int_text N ++ '*' :: X)) = N := by
    rw [(item_rep_int_eq _).1, s2, to_int_to_long N hN1 hN2]
  have r2 : item_bitlen_int ('*' :: (int_text N ++ '*' :: X)) = item_bitlen_int X := by
    rw [(item_rep_int_eq _).2, s3, (item_rep_int_eq X).2]
  have r3 : item_rep_int X = 1 := by
    rw [(item_rep_int_eq X).1, s5]; decide
  have hdoc : doc_items (join_items (List.replicate N.toNat X)) = List.replicate N.toNat X := by
    apply doc_items_join
    · intro it hit; rw [(List.mem_replicate.mp hit).2]; exact x1
    · intro it hit; rw [(List.mem_replicate.mp hit).2]; exact x2
    · intro it hit; rw [(List.mem_replicate.mp hit).2]; exact x3
    · intro it hit; rw [(List.mem_replicate.mp hit).2]; exact x5
    · intro it c h1 h2
      have : it ∈ List.replicate N.toNat X := List.mem_of_mem_head? h1
      rw [(List.mem_replicate.mp this).2] at h2
      exact x6 c h2
    · intro it c h1 h2
      have : it ∈ List.replicate N.toNat X := List.mem_of_mem_getLast? h1
      rw [(List.mem_replicate.mp this).2] at h2
      exact x7 c h2
  have hcalls : binstr_calls_int ('*' :: (int_text N ++ '*' :: X)) buflen
      = binstr_calls_int (join_items (List.replicate N.toNat X)) buflen := by
    rw [binstr_calls_int_eq, binstr_calls_int_eq, s1, hdoc, items_run_int_replicate buflen X r3]
    simp only [items_run_int, and_then_pure, item_step_int, r1, r2, s4]
  simp only [binstr_parse_int, hcalls]

theorem c5_repeat_equivalence_witness :
    (-2147483648 : Int) ≤ 3 ∧ (3 : Int) < 2147483648 ∧
    plain_item ['{', '7', '}', '0', 'x', '7', 'f'] = true ∧
    binstr_parse_int ('*' :: (int_text 3 ++ '*' :: ['{', '7', '}', '0', 'x', '7', 'f']))
        (fun _ => 0) 4
      = binstr_parse_int (join_items (List.replicate (3 : Int).toNat
          ['{', '7', '}', '0', 'x', '7', 'f'])) (fun _ => 0) 4 :=
  ⟨by decide, by decide, by decide,
    c5_repeat_equivalence 3 (by decide) (by decide) ['{', '7', '}', '0', 'x', '7', 'f']
      (by decide) (fun _ => 0) 4⟩

/-- C20 fails on the code. For the item `{-2147483647}0x1` the explicit
length is `-2147483647`; at the digit `1`, line 109 computes
`actual_bitlen - bitlen = 4 + 2147483647`, which does not fit in an `int` and
is stored as `-2147483645`; `dropbits` is then negative and `len` is
`-2147483647`: `bit_set` is called with that length, `sscanf_item` returns
`-2147483647`, a negative number other than `-1`, and `binstr_parse` returns
`-1`. The decimal branch rejects a negative length at line 121, the
hexadecimal, octal and binary branch does not. -/
theorem c20_negative_length_call :
    item_bitlen_int ['{', '-', '2', '1', '4', '7', '4', '8', '3', '6', '4', '7', '}', '0', 'x',
      '1'] = -2147483647 ∧
    sscanf_item_int ['0', 'x', '1'] (-2147483647) 4 0 = (-2147483647, [⟨0, 1, -2147483647⟩]) ∧
    binstr_calls_int ['{', '-', '2', '1', '4', '7', '4', '8', '3', '6', '4', '7', '}', '0', 'x',
      '1'] 4 = (-1, [⟨0, 1, -2147483647⟩]) ∧
    (sscanf_item_int ['1'] (-2147483647) 4 0).1 = -1 := by
  decide

end Binstr
